import Mathlib

/-!
Verification of the polly-polymarket dashboard server (src/unnamed/part_000,
with the older variant src/dashboard/server.js).

Conventions of the embedding:
* JavaScript numbers are modelled as exact rationals (`ℚ`) for aggregate
  arithmetic and as integers (`Int`) inside stored JSON documents; binary
  floating-point representation error is outside the model.
* `JSON.parse` / `JSON.stringify(·, null, 2)` are modelled by an executable
  parser and printer over an inductive `Json` type.
* The ambient environment (clock, env-vars, file system, upstream HTTP
  responses) is passed explicitly as arguments.
-/

namespace Polly

/-- JSON values as produced by `JSON.parse`.  Numbers are modelled as
integers (the ledger documents manipulated by the server hold integral
amounts; float formatting is outside the model).  Objects are ordered
association lists, as JavaScript preserves insertion order. -/
inductive Json where
  | null : Json
  | bool (b : Bool) : Json
  | num (n : Int) : Json
  | str (s : String) : Json
  | arr (elems : List Json) : Json
  | obj (members : List (String × Json)) : Json

/-- Lowercase hex digit, as used in `\u00XX` escapes. -/
def hexChar (n : ℕ) : Char :=
  if n < 10 then Char.ofNat (48 + n) else Char.ofNat (87 + n)

/-- Escaping of a single character inside a JSON string literal
(model of the escaping performed by `JSON.stringify`). -/
def escChar (c : Char) : List Char :=
  if c = '"' then ['\\', '"']
  else if c = '\\' then ['\\', '\\']
  else if c = '\n' then ['\\', 'n']
  else if c = '\t' then ['\\', 't']
  else if c = '\r' then ['\\', 'r']
  else if c.toNat < 32 then
    let t := c.toNat
    '\\' :: 'u' :: '0' :: '0' :: hexChar (t / 16) :: [hexChar (t % 16)]
  else [c]

def escList : List Char → List Char
  | [] => []
  | c :: r => escChar c ++ escList r

/-- Little-endian decimal digits of a natural number. -/
def digitsRev (n : ℕ) : List ℕ :=
  if n = 0 then [] else (n % 10) :: digitsRev (n / 10)
decreasing_by exact Nat.div_lt_self (Nat.pos_of_ne_zero (by assumption)) (by decide)

def digitChar (d : ℕ) : Char := Char.ofNat (48 + d)

/-- Decimal representation of a natural number. -/
def natChars (n : ℕ) : List Char :=
  if n = 0 then ['0'] else (digitsRev n).reverse.map digitChar

/-- Decimal representation of an integer. -/
def intChars (i : Int) : List Char :=
  if i < 0 then '-' :: natChars i.natAbs else natChars i.natAbs

def spacesChars (n : ℕ) : List Char := List.replicate n ' '

mutual

/-- `JSON.stringify(v, null, 2)`, as a character list; `ind` is the
indentation (in spaces) of the surrounding context. -/
def stringifyData : ℕ → Json → List Char
  | _, .null => ['n', 'u', 'l', 'l']
  | _, .bool true => ['t', 'r', 'u', 'e']
  | _, .bool false => ['f', 'a', 'l', 's', 'e']
  | _, .num n => intChars n
  | _, .str s => '"' :: (escList s.data ++ ['"'])
  | _, .arr [] => ['[', ']']
  | ind, .arr (v :: vs) =>
      '[' :: '\n' :: (elemsData (ind + 2) v vs ++ '\n' :: (spacesChars ind ++ [']']))
  | _, .obj [] => ['\x7b', '\x7d']
  | ind, .obj (m :: ms) =>
      '\x7b' :: '\n' :: (membersData (ind + 2) m ms ++ '\n' :: (spacesChars ind ++ ['\x7d']))
termination_by ind v => sizeOf v
decreasing_by all_goals (simp_wf <;> omega)

/-- The comma-and-newline separated element block of a non-empty array. -/
def elemsData : ℕ → Json → List Json → List Char
  | ind, v, [] => spacesChars ind ++ stringifyData ind v
  | ind, v, w :: ws =>
      spacesChars ind ++ (stringifyData ind v ++ ',' :: '\n' :: elemsData ind w ws)
termination_by ind v vs => sizeOf v + sizeOf vs
decreasing_by all_goals (simp_wf <;> omega)

/-- The member block of a non-empty object; keys rendered as `"k": v`. -/
def membersData : ℕ → String × Json → List (String × Json) → List Char
  | ind, (k, v), [] =>
      spacesChars ind ++ ('"' :: (escList k.data ++ '"' :: ':' :: ' ' :: stringifyData ind v))
  | ind, (k, v), m :: ms =>
      spacesChars ind ++
        ('"' :: (escList k.data ++ '"' :: ':' :: ' ' :: stringifyData ind v)) ++
        ',' :: '\n' :: membersData ind m ms
termination_by ind m ms => sizeOf m + sizeOf ms
decreasing_by all_goals (simp_wf <;> omega)

end

/-- `JSON.stringify(v, null, 2)`. -/
def jsonStringify (v : Json) : String := String.mk (stringifyData 0 v)

/-- JSON whitespace. -/
def isWsChar (c : Char) : Bool := c = ' ' || c = '\n' || c = '\t' || c = '\r'

def skipWs (s : List Char) : List Char := s.dropWhile isWsChar

def isDigitChar (c : Char) : Bool := 48 ≤ c.toNat && c.toNat ≤ 57

def hexVal (c : Char) : Option ℕ :=
  if 48 ≤ c.toNat ∧ c.toNat ≤ 57 then some (c.toNat - 48)
  else if 97 ≤ c.toNat ∧ c.toNat ≤ 102 then some (c.toNat - 87)
  else if 65 ≤ c.toNat ∧ c.toNat ≤ 70 then some (c.toNat - 55)
  else none

/-- Single-character escapes accepted after a backslash. -/
def unescChar (e : Char) : Option Char :=
  if e = '"' then some '"'
  else if e = '\\' then some '\\'
  else if e = '/' then some '/'
  else if e = 'n' then some '\n'
  else if e = 't' then some '\t'
  else if e = 'r' then some '\r'
  else if e = 'b' then some (Char.ofNat 8)
  else if e = 'f' then some (Char.ofNat 12)
  else none

/-- Body of a JSON string literal, after the opening quote: returns the
decoded characters and the remainder after the closing quote. -/
def parseStrAux : List Char → Option (List Char × List Char)
  | [] => none
  | c :: r =>
    if c = '"' then some ([], r)
    else if c = '\\' then
      match r with
      | [] => none
      | e :: r2 =>
        if e = 'u' then
          match r2 with
          | h1 :: h2 :: h3 :: h4 :: r3 =>
            match hexVal h1, hexVal h2, hexVal h3, hexVal h4 with
            | some d1, some d2, some d3, some d4 =>
              match parseStrAux r3 with
              | some (cs, r4) =>
                  some (Char.ofNat (((d1 * 16 + d2) * 16 + d3) * 16 + d4) :: cs, r4)
              | none => none
            | _, _, _, _ => none
          | _ => none
        else
          match unescChar e with
          | some d =>
            match parseStrAux r2 with
            | some (cs, r3) => some (d :: cs, r3)
            | none => none
          | none => none
    else
      match parseStrAux r with
      | some (cs, r3) => some (c :: cs, r3)
      | none => none

/-- Maximal decimal-digit run at the head of the input. -/
def parseNatChars (s : List Char) : Option (ℕ × List Char) :=
  let ds := s.takeWhile isDigitChar
  if ds.isEmpty then none
  else some (ds.foldl (fun a c => 10 * a + (c.toNat - 48)) 0, s.dropWhile isDigitChar)

mutual

/-- Model of `JSON.parse` on a value: fuel-indexed recursive descent.
Whitespace is skipped before every token. -/
def parseVal : ℕ → List Char → Option (Json × List Char)
  | 0, _ => none
  | fuel + 1, s =>
    match skipWs s with
    | [] => none
    | c :: r =>
      if c = '\x7b' then
        match skipWs r with
        | '\x7d' :: r2 => some (.obj [], r2)
        | r2 =>
          match parseMembers fuel r2 with
          | some (ms, r3) => some (.obj ms, r3)
          | none => none
      else if c = '[' then
        match skipWs r with
        | ']' :: r2 => some (.arr [], r2)
        | r2 =>
          match parseElems fuel r2 with
          | some (vs, r3) => some (.arr vs, r3)
          | none => none
      else if c = '"' then
        match parseStrAux r with
        | some (cs, r2) => some (.str (String.mk cs), r2)
        | none => none
      else if c = 'n' then
        match r with
        | 'u' :: 'l' :: 'l' :: r2 => some (.null, r2)
        | _ => none
      else if c = 't' then
        match r with
        | 'r' :: 'u' :: 'e' :: r2 => some (.bool true, r2)
        | _ => none
      else if c = 'f' then
        match r with
        | 'a' :: 'l' :: 's' :: 'e' :: r2 => some (.bool false, r2)
        | _ => none
      else if c = '-' then
        match parseNatChars r with
        | some (m, r2) => some (.num (-(m : Int)), r2)
        | none => none
      else if isDigitChar c then
        match parseNatChars (c :: r) with
        | some (m, r2) => some (.num (m : Int), r2)
        | none => none
      else none

/-- Comma-separated values up to the closing bracket of a non-empty array. -/
def parseElems : ℕ → List Char → Option (List Json × List Char)
  | 0, _ => none
  | fuel + 1, s =>
    match parseVal fuel s with
    | some (v, r) =>
      match skipWs r with
      | c :: r2 =>
        if c = ',' then
          match parseElems fuel r2 with
          | some (vs, r3) => some (v :: vs, r3)
          | none => none
        else if c = ']' then some ([v], r2)
        else none
      | [] => none
    | none => none

/-- Comma-separated `"key": value` pairs up to the closing brace of a
non-empty object. -/
def parseMembers : ℕ → List Char → Option (List (String × Json) × List Char)
  | 0, _ => none
  | fuel + 1, s =>
    match skipWs s with
    | c :: r =>
      if c = '"' then
        match parseStrAux r with
        | some (kcs, r1) =>
          match skipWs r1 with
          | c1 :: r2 =>
            if c1 = ':' then
              match parseVal fuel r2 with
              | some (v, r3) =>
                match skipWs r3 with
                | c2 :: r4 =>
                  if c2 = ',' then
                    match parseMembers fuel r4 with
                    | some (ms, r5) => some ((String.mk kcs, v) :: ms, r5)
                    | none => none
                  else if c2 = '\x7d' then some ([(String.mk kcs, v)], r4)
                  else none
                | [] => none
              | none => none
            else none
          | [] => none
        | none => none
      else none
    | [] => none

end

mutual

/-- Structural size of a JSON value (1 per node), used to bound the fuel
needed by the parser. -/
def jsize : Json → ℕ
  | .null => 1
  | .bool _ => 1
  | .num _ => 1
  | .str _ => 1
  | .arr l => 1 + jsizeElems l
  | .obj ms => 1 + jsizeMems ms
termination_by v => sizeOf v
decreasing_by all_goals (simp_wf <;> omega)

def jsizeElems : List Json → ℕ
  | [] => 0
  | v :: vs => 1 + jsize v + jsizeElems vs
termination_by l => sizeOf l
decreasing_by all_goals (simp_wf <;> omega)

def jsizeMems : List (String × Json) → ℕ
  | [] => 0
  | (_, v) :: ms => 1 + jsize v + jsizeMems ms
termination_by l => sizeOf l
decreasing_by all_goals (simp_wf <;> omega)

end

/-- Model of `JSON.parse`: parse one value, require only trailing
whitespace after it.  Returns `none` where `JSON.parse` throws. -/
def jsonParse (s : String) : Option Json :=
  match parseVal (s.data.length + 1) s.data with
  | some (v, rest) => if (skipWs rest).isEmpty then some v else none
  | none => none

/-- State of the backing file `polly-data.json` as seen by `fs`. -/
inductive FileState where
  | absent : FileState
  | unreadable : FileState
  | content (s : String) : FileState

/-- The empty-but-well-formed ledger document. -/
def defaultLedger : Json :=
  .obj [("trades", .arr []), ("transfers", .arr []), ("notes", .arr [])]

/-- `loadData` (src/unnamed/part_000:39-42): parse the backing file,
returning the default document when the read or the parse fails. -/
def loadData (fs : FileState) : Json :=
  match fs with
  | .content s =>
    match jsonParse s with
    | some d => d
    | none => defaultLedger
  | _ => defaultLedger

/-- `saveData` (src/unnamed/part_000:44-46): overwrite the backing file
with `JSON.stringify(d, null, 2)`. -/
def saveData (d : Json) : FileState := .content (jsonStringify d)

/-! ### Whitespace and lexical lemmas -/

/-- The head of the list (if any) does not satisfy `p`. -/
def headIsNot (p : Char → Bool) : List Char → Prop
  | [] => True
  | c :: _ => p c = false

theorem skipWs_cons_ws {c : Char} (h : isWsChar c = true) (s : List Char) :
    skipWs (c :: s) = skipWs s := by
  simp [skipWs, List.dropWhile, h]

theorem skipWs_cons_not_ws {c : Char} (h : isWsChar c = false) (s : List Char) :
    skipWs (c :: s) = c :: s := by
  simp [skipWs, List.dropWhile, h]

theorem skipWs_append_ws {w : List Char} (h : ∀ c ∈ w, isWsChar c = true)
    (s : List Char) : skipWs (w ++ s) = skipWs s := by
  induction w with
  | nil => rfl
  | cons c cs ih =>
    rw [List.cons_append, skipWs_cons_ws (h c (by simp))]
    exact ih (fun d hd => h d (by simp [hd]))

theorem spacesChars_ws (n : ℕ) : ∀ c ∈ spacesChars n, isWsChar c = true := by
  intro c hc
  rw [spacesChars, List.mem_replicate] at hc
  rw [hc.2]; decide

theorem headIsNot_skipWs (s : List Char) : headIsNot isWsChar (skipWs s) := by
  induction s with
  | nil => trivial
  | cons c cs ih =>
    by_cases h : isWsChar c = true
    · rw [skipWs_cons_ws h]; exact ih
    · rw [skipWs_cons_not_ws (by simpa using h)]
      simpa [headIsNot] using h

theorem skipWs_of_headIsNot {s : List Char} (h : headIsNot isWsChar s) :
    skipWs s = s := by
  cases s with
  | nil => rfl
  | cons c cs => exact skipWs_cons_not_ws h cs

theorem skipWs_skipWs (s : List Char) : skipWs (skipWs s) = skipWs s :=
  skipWs_of_headIsNot (headIsNot_skipWs s)

theorem parseVal_skipWs (fuel : ℕ) (s : List Char) :
    parseVal fuel (skipWs s) = parseVal fuel s := by
  cases fuel with
  | zero => rfl
  | succ n => simp only [parseVal, skipWs_skipWs]

theorem parseVal_append_ws {w : List Char} (h : ∀ c ∈ w, isWsChar c = true)
    (fuel : ℕ) (s : List Char) : parseVal fuel (w ++ s) = parseVal fuel s := by
  cases fuel with
  | zero => rfl
  | succ n => simp only [parseVal, skipWs_append_ws h]

theorem parseElems_append_ws {w : List Char} (h : ∀ c ∈ w, isWsChar c = true)
    (fuel : ℕ) (s : List Char) : parseElems fuel (w ++ s) = parseElems fuel s := by
  cases fuel with
  | zero => rfl
  | succ n => simp only [parseElems, parseVal_append_ws h]

theorem parseMembers_append_ws {w : List Char} (h : ∀ c ∈ w, isWsChar c = true)
    (fuel : ℕ) (s : List Char) : parseMembers fuel (w ++ s) = parseMembers fuel s := by
  cases fuel with
  | zero => rfl
  | succ n => simp only [parseMembers, skipWs_append_ws h]

/-! ### String-literal escaping round trip -/

theorem hexVal_hexChar {d : ℕ} (h : d < 16) :
    hexVal (hexChar d) = some d := by
  have : ∀ d : Fin 16, hexVal (hexChar d.val) = some d.val := by decide
  exact this ⟨d, h⟩

theorem isDigitChar_digitChar {d : ℕ} (h : d < 10) :
    isDigitChar (digitChar d) = true := by
  have : ∀ d : Fin 10, isDigitChar (digitChar d.val) = true := by decide
  exact this ⟨d, h⟩

theorem toNat_digitChar {d : ℕ} (h : d < 10) : (digitChar d).toNat = 48 + d := by
  have : ∀ d : Fin 10, (digitChar d.val).toNat = 48 + d.val := by decide
  exact this ⟨d, h⟩

theorem parseStrAux_esc (cs rest : List Char) :
    parseStrAux (escList cs ++ '"' :: rest) = some (cs, rest) := by
  induction cs with
  | nil =>
    show parseStrAux ('"' :: rest) = some ([], rest)
    rw [parseStrAux.eq_def]; simp
  | cons c cs ih =>
    show parseStrAux ((escChar c ++ escList cs) ++ '"' :: rest) = some (c :: cs, rest)
    rw [List.append_assoc]
    by_cases h1 : c = '"'
    · subst h1
      simp only [escChar, if_pos rfl, List.cons_append, List.nil_append]
      rw [parseStrAux.eq_def]; simp [unescChar, ih]
    by_cases h2 : c = '\\'
    · subst h2
      simp only [escChar, if_pos rfl, if_neg (by decide : ¬('\\' : Char) = '"'),
        List.cons_append, List.nil_append]
      rw [parseStrAux.eq_def]; simp [unescChar, ih]
    by_cases h3 : c = '\n'
    · subst h3
      simp only [escChar, if_pos rfl, if_neg (by decide : ¬('\n' : Char) = '"'),
        if_neg (by decide : ¬('\n' : Char) = '\\'), List.cons_append, List.nil_append]
      rw [parseStrAux.eq_def]; simp [unescChar, ih]
    by_cases h4 : c = '\t'
    · subst h4
      simp only [escChar, if_pos rfl, if_neg (by decide : ¬('\t' : Char) = '"'),
        if_neg (by decide : ¬('\t' : Char) = '\\'),
        if_neg (by decide : ¬('\t' : Char) = '\n'), List.cons_append, List.nil_append]
      rw [parseStrAux.eq_def]; simp [unescChar, ih]
    by_cases h5 : c = '\r'
    · subst h5
      simp only [escChar, if_pos rfl, if_neg (by decide : ¬('\x0d' : Char) = '"'),
        if_neg (by decide : ¬('\x0d' : Char) = '\\'),
        if_neg (by decide : ¬('\x0d' : Char) = '\n'),
        if_neg (by decide : ¬('\x0d' : Char) = '\t'), List.cons_append, List.nil_append]
      rw [parseStrAux.eq_def]; simp [unescChar, ih]
    by_cases h6 : c.toNat < 32
    · rw [escChar, if_neg h1, if_neg h2, if_neg h3, if_neg h4, if_neg h5, if_pos h6]
      have e1 : hexVal (hexChar (c.toNat / 16)) = some (c.toNat / 16) :=
        hexVal_hexChar (by omega)
      have e2 : hexVal (hexChar (c.toNat % 16)) = some (c.toNat % 16) :=
        hexVal_hexChar (by omega)
      simp only [List.cons_append, List.nil_append]
      rw [parseStrAux.eq_def]
      simp [if_neg (by decide : ¬('\\' : Char) = '"'), e1, e2,
        show hexVal '0' = some 0 by decide, ih]
      rw [show c.toNat / 16 * 16 + c.toNat % 16 = c.toNat by omega]
      rw [Char.ofNat_toNat]
    · rw [escChar, if_neg h1, if_neg h2, if_neg h3, if_neg h4, if_neg h5, if_neg h6]
      simp only [List.cons_append, List.nil_append]
      rw [parseStrAux.eq_def]
      simp [h1, h2, ih]

/-! ### Decimal number round trip -/

theorem takeWhile_append_all {p : Char → Bool} {xs ys : List Char}
    (h : ∀ c ∈ xs, p c = true) (h2 : headIsNot p ys) :
    (xs ++ ys).takeWhile p = xs ∧ (xs ++ ys).dropWhile p = ys := by
  induction xs with
  | nil =>
    cases ys with
    | nil => exact ⟨rfl, rfl⟩
    | cons c r =>
      have : p c = false := h2
      simp [List.takeWhile, List.dropWhile, this]
  | cons c cs ih =>
    have hc : p c = true := h c (by simp)
    have := ih (fun d hd => h d (by simp [hd]))
    simp [List.takeWhile, List.dropWhile, hc, this.1, this.2]

def valLE (l : List ℕ) : ℕ := l.foldr (fun d acc => 10 * acc + d) 0

theorem valLE_digitsRev (n : ℕ) : valLE (digitsRev n) = n := by
  induction n using Nat.strong_induction_on with
  | _ n ih =>
    by_cases h : n = 0
    · subst h; rw [digitsRev]; simp [valLE]
    · rw [digitsRev, if_neg h]
      have hlt : n / 10 < n := Nat.div_lt_self (Nat.pos_of_ne_zero h) (by decide)
      have := ih (n / 10) hlt
      simp only [valLE, List.foldr_cons] at this ⊢
      rw [this]
      omega

theorem digitsRev_lt (n : ℕ) : ∀ d ∈ digitsRev n, d < 10 := by
  induction n using Nat.strong_induction_on with
  | _ n ih =>
    by_cases h : n = 0
    · subst h; rw [digitsRev]; simp
    · rw [digitsRev, if_neg h]
      intro d hd
      rcases List.mem_cons.mp hd with h1 | h1
      · subst h1; exact Nat.mod_lt _ (by decide)
      · exact ih (n / 10) (Nat.div_lt_self (Nat.pos_of_ne_zero h) (by decide)) d h1

theorem natChars_digits (n : ℕ) : ∀ c ∈ natChars n, isDigitChar c = true := by
  intro c hc
  rw [natChars] at hc
  by_cases h : n = 0
  · simp [h] at hc; rw [hc]; decide
  · rw [if_neg h] at hc
    rcases List.mem_map.mp hc with ⟨d, hd, rfl⟩
    exact isDigitChar_digitChar (digitsRev_lt n d (List.mem_reverse.mp hd))

theorem natChars_ne_nil (n : ℕ) : natChars n ≠ [] := by
  rw [natChars]
  by_cases h : n = 0
  · simp [h]
  · rw [if_neg h]
    intro hcon
    have : digitsRev n = [] := by
      cases hr : (digitsRev n).reverse with
      | nil => simpa using congrArg List.reverse hr
      | cons a l => rw [hr] at hcon; simp at hcon
    rw [digitsRev, if_neg h] at this
    exact List.cons_ne_nil _ _ this

theorem foldr_digit_eq (ds : List ℕ) (h : ∀ d ∈ ds, d < 10) :
    ds.foldr (fun d acc => 10 * acc + ((digitChar d).toNat - 48)) 0 = valLE ds := by
  induction ds with
  | nil => rfl
  | cons d ds ih =>
    simp only [valLE, List.foldr_cons] at ih ⊢
    rw [ih (fun e he => h e (by simp [he])), toNat_digitChar (h d (by simp))]
    omega

theorem natChars_foldl (n : ℕ) :
    (natChars n).foldl (fun a c => 10 * a + (c.toNat - 48)) 0 = n := by
  rw [natChars]
  by_cases h : n = 0
  · simp [h]
  · rw [if_neg h, List.map_reverse, List.foldl_reverse, List.foldr_map]
    have := foldr_digit_eq (digitsRev n) (digitsRev_lt n)
    simp only [Function.comp] at this ⊢
    rw [this, valLE_digitsRev]

theorem parseNatChars_natChars (n : ℕ) {rest : List Char}
    (hrest : headIsNot isDigitChar rest) :
    parseNatChars (natChars n ++ rest) = some (n, rest) := by
  obtain ⟨ht, hd⟩ := takeWhile_append_all (natChars_digits n) hrest
  rw [parseNatChars]
  simp only [ht, hd]
  rw [if_neg (by simpa [List.isEmpty_iff] using natChars_ne_nil n)]
  rw [natChars_foldl]

/-! ### Head-shape facts about serialized values -/

theorem ws_not_digit {c : Char} (h : isWsChar c = true) : isDigitChar c = false := by
  have : c = ' ' ∨ c = '\n' ∨ c = '\t' ∨ c = '\r' := by
    by_contra hcon
    push_neg at hcon
    simp [isWsChar, hcon.1, hcon.2.1, hcon.2.2.1, hcon.2.2.2] at h
  rcases this with rfl | rfl | rfl | rfl <;> decide

theorem digit_not_ws {c : Char} (h : isDigitChar c = true) : isWsChar c = false := by
  by_contra hcon
  have h2 : isWsChar c = true := by
    cases hb : isWsChar c
    · exact absurd hb hcon
    · rfl
  rw [ws_not_digit h2] at h
  cases h

theorem digit_ne_of {c : Char} (h : isDigitChar c = true) (d : Char)
    (hd : isDigitChar d = false) : c ≠ d := by
  intro he
  rw [he, hd] at h
  cases h

/-- The serialization of any value is a cons whose head is not whitespace
and not a closing token. -/
theorem stringify_cons (ind : ℕ) (v : Json) :
    ∃ c t, stringifyData ind v = c :: t ∧ isWsChar c = false ∧
      c ≠ ']' ∧ c ≠ '\x7d' := by
  cases v with
  | null =>
    exact ⟨'n', ['u', 'l', 'l'], by simp [stringifyData], by decide, by decide, by decide⟩
  | bool b => cases b with
    | true =>
      exact ⟨'t', ['r', 'u', 'e'], by simp [stringifyData], by decide, by decide, by decide⟩
    | false =>
      exact ⟨'f', ['a', 'l', 's', 'e'], by simp [stringifyData], by decide, by decide,
        by decide⟩
  | num n =>
    rw [show stringifyData ind (.num n) = intChars n by simp [stringifyData], intChars]
    by_cases hn : n < 0
    · exact ⟨'-', _, by rw [if_pos hn], by decide, by decide, by decide⟩
    · rw [if_neg hn]
      cases hnc : natChars n.natAbs with
      | nil => exact absurd hnc (natChars_ne_nil _)
      | cons c t =>
        have hcd : isDigitChar c = true :=
          natChars_digits _ c (by rw [hnc]; exact List.mem_cons_self _ _)
        exact ⟨c, t, rfl, digit_not_ws hcd,
          digit_ne_of hcd _ (by decide), digit_ne_of hcd _ (by decide)⟩
  | str s =>
    exact ⟨'"', escList s.data ++ ['"'], by simp [stringifyData], by decide, by decide,
      by decide⟩
  | arr l => cases l with
    | nil => exact ⟨'[', [']'], by simp [stringifyData], by decide, by decide, by decide⟩
    | cons v vs =>
      exact ⟨'[', '\n' :: (elemsData (ind + 2) v vs ++ '\n' :: (spacesChars ind ++ [']'])),
        by simp [stringifyData], by decide, by decide, by decide⟩
  | obj ms => cases ms with
    | nil =>
      exact ⟨'\x7b', ['\x7d'], by simp [stringifyData], by decide, by decide, by decide⟩
    | cons m ms =>
      exact ⟨'\x7b',
        '\n' :: (membersData (ind + 2) m ms ++ '\n' :: (spacesChars ind ++ ['\x7d'])),
        by simp [stringifyData], by decide, by decide, by decide⟩

/-- `skipWs` of an element block (plus a suffix) lands on the head of the
first element's serialization. -/
theorem skipWs_elems_cons (ind : ℕ) (v : Json) (vs : List Json) (t : List Char) :
    ∃ c y, skipWs (elemsData ind v vs ++ t) = c :: y ∧ isWsChar c = false ∧
      c ≠ ']' ∧ c ≠ '\x7d' := by
  obtain ⟨c, t0, hc, hws, hne1, hne2⟩ := stringify_cons ind v
  cases vs with
  | nil =>
    refine ⟨c, t0 ++ t, ?_, hws, hne1, hne2⟩
    rw [show elemsData ind v [] = spacesChars ind ++ stringifyData ind v by
      simp [elemsData]]
    rw [List.append_assoc, skipWs_append_ws (spacesChars_ws ind), hc,
      List.cons_append, skipWs_cons_not_ws hws]
  | cons w ws =>
    refine ⟨c, t0 ++ (',' :: '\n' :: (elemsData ind w ws ++ t)), ?_, hws, hne1, hne2⟩
    rw [show elemsData ind v (w :: ws) =
      spacesChars ind ++ (stringifyData ind v ++ ',' :: '\n' :: elemsData ind w ws) by
      simp [elemsData]]
    rw [List.append_assoc, skipWs_append_ws (spacesChars_ws ind), hc]
    simp only [List.cons_append, List.append_assoc]
    rw [skipWs_cons_not_ws hws]

theorem parseElems_skipWs (fuel : ℕ) (s : List Char) :
    parseElems fuel (skipWs s) = parseElems fuel s := by
  cases fuel with
  | zero => rfl
  | succ n => simp only [parseElems, parseVal_skipWs]

theorem parseMembers_skipWs (fuel : ℕ) (s : List Char) :
    parseMembers fuel (skipWs s) = parseMembers fuel s := by
  cases fuel with
  | zero => rfl
  | succ n => simp only [parseMembers, skipWs_skipWs]

/-! ### Size bounds -/

theorem jsize_pos (v : Json) : 1 ≤ jsize v := by
  cases v <;> simp [jsize]

theorem mk_data (s : String) : String.mk s.data = s := by cases s; rfl

/-- The guard needed after a serialized number: the following character
must not extend the digit run. -/
def numGuard : Json → List Char → Prop
  | .num _, rest => headIsNot isDigitChar rest
  | _, _ => True

theorem numGuard_nil (v : Json) : numGuard v [] := by
  cases v <;> trivial

theorem numGuard_wsHead (v : Json) {w : List Char} (rest : List Char)
    {c : Char} (hc : isDigitChar c = false)
    (hw : ∀ d ∈ w, isWsChar d = true) : numGuard v (w ++ c :: rest) := by
  cases v <;> try trivial
  show headIsNot isDigitChar (w ++ c :: rest)
  cases w with
  | nil => exact hc
  | cons d ds => exact ws_not_digit (hw d (by simp))

theorem intChars_ne_nil (n : Int) : intChars n ≠ [] := by
  rw [intChars]
  by_cases hn : n < 0
  · rw [if_pos hn]; exact List.cons_ne_nil _ _
  · rw [if_neg hn]; exact natChars_ne_nil _

theorem jsize_le_length : ∀ N : ℕ,
    (∀ v ind, jsize v ≤ N → jsize v ≤ (stringifyData ind v).length) ∧
    (∀ v vs ind, jsizeElems (v :: vs) ≤ N →
      jsizeElems (v :: vs) ≤ (elemsData ind v vs).length + 3) ∧
    (∀ k (va : Json) ms ind, jsizeMems ((k, va) :: ms) ≤ N →
      jsizeMems ((k, va) :: ms) ≤ (membersData ind (k, va) ms).length + 3) := by
  intro N
  induction N with
  | zero =>
    refine ⟨fun v ind h => absurd h (by have := jsize_pos v; omega), ?_, ?_⟩
    · intro v vs ind h
      have := jsize_pos v
      simp [jsizeElems] at h
    · intro k va ms ind h
      have := jsize_pos va
      simp [jsizeMems] at h
  | succ N ih =>
    obtain ⟨ihV, ihE, ihM⟩ := ih
    refine ⟨?_, ?_, ?_⟩
    · intro v ind hN
      cases v with
      | null => simp [jsize, stringifyData]
      | bool b => cases b <;> simp [jsize, stringifyData]
      | num n =>
        have h1 : 1 ≤ (intChars n).length :=
          List.length_pos.mpr (intChars_ne_nil n)
        simp only [jsize]
        rw [show stringifyData ind (.num n) = intChars n by simp [stringifyData]]
        omega
      | str s => simp [jsize, stringifyData]
      | arr l =>
        cases l with
        | nil => simp [jsize, jsizeElems, stringifyData]
        | cons v vs =>
          have hsz : jsizeElems (v :: vs) ≤ N := by
            simp only [jsize] at hN; omega
          have := ihE v vs (ind + 2) hsz
          simp only [jsize]
          rw [show stringifyData ind (.arr (v :: vs)) =
            '[' :: '\n' :: (elemsData (ind + 2) v vs ++ '\n' :: (spacesChars ind ++ [']'])) by
            simp [stringifyData]]
          simp only [List.length_cons, List.length_append, spacesChars,
            List.length_replicate, List.length_singleton]
          omega
      | obj ms =>
        cases ms with
        | nil => simp [jsize, jsizeMems, stringifyData]
        | cons m mss =>
          obtain ⟨k, va⟩ := m
          have hsz : jsizeMems ((k, va) :: mss) ≤ N := by
            simp only [jsize] at hN; omega
          have := ihM k va mss (ind + 2) hsz
          simp only [jsize]
          rw [show stringifyData ind (.obj ((k, va) :: mss)) =
            '\x7b' :: '\n' ::
              (membersData (ind + 2) (k, va) mss ++ '\n' :: (spacesChars ind ++ ['\x7d'])) by
            simp [stringifyData]]
          simp only [List.length_cons, List.length_append, spacesChars,
            List.length_replicate, List.length_singleton]
          omega
    · intro v vs ind hN
      cases vs with
      | nil =>
        have hv : jsize v ≤ N := by simp only [jsizeElems] at hN; have := jsize_pos v; omega
        have := ihV v ind hv
        rw [show elemsData ind v [] = spacesChars ind ++ stringifyData ind v by
          simp [elemsData]]
        simp only [jsizeElems, List.length_append, spacesChars, List.length_replicate]
        omega
      | cons w ws =>
        have hv : jsize v ≤ N := by
          simp only [jsizeElems] at hN
          have := jsize_pos v
          have := jsize_pos w
          omega
        have hw : jsizeElems (w :: ws) ≤ N := by
          simp only [jsizeElems] at hN ⊢
          have := jsize_pos v
          omega
        have h1 := ihV v ind hv
        have h2 := ihE w ws ind hw
        rw [show elemsData ind v (w :: ws) =
          spacesChars ind ++ (stringifyData ind v ++ ',' :: '\n' :: elemsData ind w ws) by
          simp [elemsData]]
        simp only [jsizeElems, List.length_append, List.length_cons, spacesChars,
          List.length_replicate] at h2 ⊢
        omega
    · intro k va ms ind hN
      cases ms with
      | nil =>
        have hv : jsize va ≤ N := by
          simp only [jsizeMems] at hN; have := jsize_pos va; omega
        have := ihV va ind hv
        rw [show membersData ind (k, va) [] =
          spacesChars ind ++ ('"' :: (escList k.data ++ '"' :: ':' :: ' ' :: stringifyData ind va)) by
          simp [membersData]]
        simp only [jsizeMems, List.length_append, List.length_cons, spacesChars,
          List.length_replicate]
        omega
      | cons m mss =>
        obtain ⟨k2, va2⟩ := m
        have hv : jsize va ≤ N := by
          simp only [jsizeMems] at hN
          have := jsize_pos va
          have := jsize_pos va2
          omega
        have hm : jsizeMems ((k2, va2) :: mss) ≤ N := by
          simp only [jsizeMems] at hN ⊢
          have := jsize_pos va
          omega
        have h1 := ihV va ind hv
        have h2 := ihM k2 va2 mss ind hm
        rw [show membersData ind (k, va) ((k2, va2) :: mss) =
          spacesChars ind ++
            ('"' :: (escList k.data ++ '"' :: ':' :: ' ' :: stringifyData ind va)) ++
            ',' :: '\n' :: membersData ind (k2, va2) mss by
          simp [membersData]]
        simp only [jsizeMems, List.length_append, List.length_cons, spacesChars,
          List.length_replicate] at h2 ⊢
        omega

theorem jsize_le_stringify (v : Json) (ind : ℕ) :
    jsize v ≤ (stringifyData ind v).length :=
  (jsize_le_length (jsize v)).1 v ind le_rfl


theorem numGuard_cons (v : Json) {c : Char} (rest : List Char)
    (hc : isDigitChar c = false) : numGuard v (c :: rest) := by
  cases v <;> first | exact hc | trivial

theorem skipWs_members_cons (ind : ℕ) (k : String) (va : Json)
    (ms : List (String × Json)) (t : List Char) :
    ∃ y, skipWs (membersData ind (k, va) ms ++ t) = '"' :: y := by
  cases ms with
  | nil =>
    refine ⟨(escList k.data ++ '"' :: ':' :: ' ' :: stringifyData ind va) ++ t, ?_⟩
    rw [show membersData ind (k, va) [] =
      spacesChars ind ++ ('"' :: (escList k.data ++ '"' :: ':' :: ' ' :: stringifyData ind va)) by
      simp [membersData]]
    rw [List.append_assoc, skipWs_append_ws (spacesChars_ws ind), List.cons_append,
      skipWs_cons_not_ws (by decide)]
  | cons m2 ms2 =>
    refine ⟨(escList k.data ++ '"' :: ':' :: ' ' :: stringifyData ind va) ++
      (',' :: '\n' :: membersData ind m2 ms2 ++ t), ?_⟩
    rw [show membersData ind (k, va) (m2 :: ms2) =
      spacesChars ind ++ ('"' :: (escList k.data ++ '"' :: ':' :: ' ' :: stringifyData ind va)) ++
        ',' :: '\n' :: membersData ind m2 ms2 by simp [membersData]]
    rw [List.append_assoc, List.append_assoc, skipWs_append_ws (spacesChars_ws ind),
      List.cons_append, skipWs_cons_not_ws (by decide)]

theorem roundTripAux : ∀ N : ℕ,
    (∀ v ind rest fuel, jsize v ≤ N → jsize v ≤ fuel → numGuard v rest →
      parseVal fuel (stringifyData ind v ++ rest) = some (v, rest)) ∧
    (∀ v vs ind w rest fuel, jsizeElems (v :: vs) ≤ N → jsizeElems (v :: vs) ≤ fuel →
      (∀ c ∈ w, isWsChar c = true) →
      parseElems fuel (elemsData ind v vs ++ (w ++ ']' :: rest)) = some (v :: vs, rest)) ∧
    (∀ k va ms ind w rest fuel, jsizeMems ((k, va) :: ms) ≤ N →
      jsizeMems ((k, va) :: ms) ≤ fuel →
      (∀ c ∈ w, isWsChar c = true) →
      parseMembers fuel (membersData ind (k, va) ms ++ (w ++ '\x7d' :: rest)) =
        some ((k, va) :: ms, rest)) := by
  intro N
  induction N with
  | zero =>
    refine ⟨fun v ind rest fuel h => absurd h (by have := jsize_pos v; omega), ?_, ?_⟩
    · intro v vs ind w rest fuel h
      have := jsize_pos v
      simp [jsizeElems] at h
    · intro k va ms ind w rest fuel h
      have := jsize_pos va
      simp [jsizeMems] at h
  | succ N ih =>
    obtain ⟨ihV, ihE, ihM⟩ := ih
    refine ⟨?_, ?_, ?_⟩
    · -- values
      intro v ind rest fuel hN hfuel hguard
      have h1 := jsize_pos v
      cases fuel with
      | zero => omega
      | succ f =>
      cases v with
      | null =>
        rw [show stringifyData ind .null = ['n', 'u', 'l', 'l'] by simp [stringifyData]]
        simp only [parseVal, List.cons_append, List.nil_append]
        rw [skipWs_cons_not_ws (by decide)]
        simp
      | bool b =>
        cases b with
        | true =>
          rw [show stringifyData ind (.bool true) = ['t', 'r', 'u', 'e'] by
            simp [stringifyData]]
          simp only [parseVal, List.cons_append, List.nil_append]
          rw [skipWs_cons_not_ws (by decide)]
          simp
        | false =>
          rw [show stringifyData ind (.bool false) = ['f', 'a', 'l', 's', 'e'] by
            simp [stringifyData]]
          simp only [parseVal, List.cons_append, List.nil_append]
          rw [skipWs_cons_not_ws (by decide)]
          simp
      | num n =>
        have hg : headIsNot isDigitChar rest := hguard
        rw [show stringifyData ind (.num n) = intChars n by simp [stringifyData], intChars]
        by_cases hn : n < 0
        · rw [if_pos hn]
          simp only [parseVal, List.cons_append]
          rw [skipWs_cons_not_ws (by decide)]
          simp [parseNatChars_natChars n.natAbs hg]
          rw [abs_of_neg hn]
          exact neg_neg n
        · rw [if_neg hn]
          cases hnc : natChars n.natAbs with
          | nil => exact absurd hnc (natChars_ne_nil _)
          | cons c t =>
            have hcd : isDigitChar c = true :=
              natChars_digits _ c (by rw [hnc]; exact List.mem_cons_self _ _)
            simp only [parseVal, List.cons_append]
            rw [skipWs_cons_not_ws (digit_not_ws hcd)]
            simp [digit_ne_of hcd _ (by decide : isDigitChar '\x7b' = false),
              digit_ne_of hcd _ (by decide : isDigitChar '[' = false),
              digit_ne_of hcd _ (by decide : isDigitChar '\"' = false),
              digit_ne_of hcd _ (by decide : isDigitChar 'n' = false),
              digit_ne_of hcd _ (by decide : isDigitChar 't' = false),
              digit_ne_of hcd _ (by decide : isDigitChar 'f' = false),
              digit_ne_of hcd _ (by decide : isDigitChar '-' = false),
              hcd]
            rw [show (c :: (t ++ rest) : List Char) = natChars n.natAbs ++ rest by
              rw [hnc]; simp]
            rw [parseNatChars_natChars n.natAbs hg]
            simp [Int.natAbs_of_nonneg (by omega : (0:Int) ≤ n)]
      | str s =>
        rw [show stringifyData ind (.str s) = '"' :: (escList s.data ++ ['"']) by
          simp [stringifyData]]
        simp only [parseVal, List.cons_append, List.append_assoc, List.singleton_append]
        rw [skipWs_cons_not_ws (by decide)]
        simp [parseStrAux_esc, mk_data]
      | arr l =>
        cases l with
        | nil =>
          rw [show stringifyData ind (.arr []) = ['[', ']'] by simp [stringifyData]]
          simp only [parseVal, List.cons_append, List.nil_append]
          rw [skipWs_cons_not_ws (by decide)]
          simp [skipWs_cons_not_ws (show isWsChar ']' = false by decide)]
        | cons v vs =>
          rw [show stringifyData ind (.arr (v :: vs)) =
            '[' :: '\n' :: (elemsData (ind + 2) v vs ++ '\n' :: (spacesChars ind ++ [']'])) by
            simp [stringifyData]]
          have hN2 : jsizeElems (v :: vs) ≤ N := by simp only [jsize] at hN; omega
          have hf2 : jsizeElems (v :: vs) ≤ f := by simp only [jsize] at hfuel; omega
          have hw0 : ∀ c ∈ ('\n' :: spacesChars ind), isWsChar c = true := by
            intro c hc
            rcases List.mem_cons.mp hc with rfl | hc2
            · rfl
            · exact spacesChars_ws ind c hc2
          have harg : ('[' :: '\n' ::
              (elemsData (ind + 2) v vs ++ '\n' :: (spacesChars ind ++ [']']))) ++ rest =
              '[' :: '\n' :: (elemsData (ind + 2) v vs ++
                ('\n' :: (spacesChars ind ++ ']' :: rest))) := by
            simp [List.append_assoc]
          rw [harg]
          simp only [parseVal]
          rw [skipWs_cons_not_ws (by decide)]
          obtain ⟨c0, y, hsk, hws0, hne1, hne2⟩ :=
            skipWs_elems_cons (ind + 2) v vs ('\n' :: (spacesChars ind ++ ']' :: rest))
          have hsk2 : skipWs ('\n' :: (elemsData (ind + 2) v vs ++
              ('\n' :: (spacesChars ind ++ ']' :: rest)))) = c0 :: y := by
            rw [skipWs_cons_ws (by decide)]
            exact hsk
          have hpe : parseElems f (c0 :: y) = some (v :: vs, rest) := by
            rw [← hsk, parseElems_skipWs]
            exact ihE v vs (ind + 2) ('\n' :: spacesChars ind) rest f hN2 hf2 hw0
          simp [hsk2, hne1, hpe]
      | obj ms =>
        cases ms with
        | nil =>
          rw [show stringifyData ind (.obj []) = ['\x7b', '\x7d'] by simp [stringifyData]]
          simp only [parseVal, List.cons_append, List.nil_append]
          rw [skipWs_cons_not_ws (by decide)]
          simp [skipWs_cons_not_ws (show isWsChar '\x7d' = false by decide)]
        | cons m ms2 =>
          obtain ⟨k, va⟩ := m
          rw [show stringifyData ind (.obj ((k, va) :: ms2)) =
            '\x7b' :: '\n' ::
              (membersData (ind + 2) (k, va) ms2 ++ '\n' :: (spacesChars ind ++ ['\x7d'])) by
            simp [stringifyData]]
          have hN2 : jsizeMems ((k, va) :: ms2) ≤ N := by simp only [jsize] at hN; omega
          have hf2 : jsizeMems ((k, va) :: ms2) ≤ f := by simp only [jsize] at hfuel; omega
          have hw0 : ∀ c ∈ ('\n' :: spacesChars ind), isWsChar c = true := by
            intro c hc
            rcases List.mem_cons.mp hc with rfl | hc2
            · rfl
            · exact spacesChars_ws ind c hc2
          have harg : ('\x7b' :: '\n' ::
              (membersData (ind + 2) (k, va) ms2 ++ '\n' :: (spacesChars ind ++ ['\x7d']))) ++ rest =
              '\x7b' :: '\n' :: (membersData (ind + 2) (k, va) ms2 ++
                ('\n' :: (spacesChars ind ++ '\x7d' :: rest))) := by
            simp [List.append_assoc]
          rw [harg]
          simp only [parseVal]
          rw [skipWs_cons_not_ws (by decide)]
          obtain ⟨y, hsk⟩ :=
            skipWs_members_cons (ind + 2) k va ms2 ('\n' :: (spacesChars ind ++ '\x7d' :: rest))
          have hsk2 : skipWs ('\n' :: (membersData (ind + 2) (k, va) ms2 ++
              ('\n' :: (spacesChars ind ++ '\x7d' :: rest)))) = '"' :: y := by
            rw [skipWs_cons_ws (by decide)]
            exact hsk
          have hpm : parseMembers f ('"' :: y) = some ((k, va) :: ms2, rest) := by
            rw [← hsk, parseMembers_skipWs]
            exact ihM k va ms2 (ind + 2) ('\n' :: spacesChars ind) rest f hN2 hf2 hw0
          simp [hsk2, hpm]
    · -- element lists
      intro v vs ind w rest fuel hN hfuel hw
      have h1 := jsize_pos v
      cases fuel with
      | zero => simp only [jsizeElems] at hfuel; omega
      | succ f =>
      cases vs with
      | nil =>
        rw [show elemsData ind v [] = spacesChars ind ++ stringifyData ind v by
          simp [elemsData], List.append_assoc]
        simp only [parseElems]
        rw [parseVal_append_ws (spacesChars_ws ind)]
        have hguard : numGuard v (w ++ ']' :: rest) :=
          numGuard_wsHead v rest (by decide) hw
        have hval := ihV v ind (w ++ ']' :: rest) f
          (by simp only [jsizeElems] at hN; omega)
          (by simp only [jsizeElems] at hfuel; omega) hguard
        have hskw : skipWs (w ++ ']' :: rest) = ']' :: rest := by
          rw [skipWs_append_ws hw, skipWs_cons_not_ws (by decide)]
        simp [hval, hskw]
      | cons w2 ws2 =>
        rw [show elemsData ind v (w2 :: ws2) =
          spacesChars ind ++ (stringifyData ind v ++ ',' :: '\n' :: elemsData ind w2 ws2) by
          simp [elemsData]]
        have harg : (spacesChars ind ++
            (stringifyData ind v ++ ',' :: '\n' :: elemsData ind w2 ws2)) ++
            (w ++ ']' :: rest) =
            spacesChars ind ++ (stringifyData ind v ++
              (',' :: '\n' :: (elemsData ind w2 ws2 ++ (w ++ ']' :: rest)))) := by
          simp [List.append_assoc]
        rw [harg]
        simp only [parseElems]
        rw [parseVal_append_ws (spacesChars_ws ind)]
        have hguard : numGuard v (',' :: '\n' :: (elemsData ind w2 ws2 ++ (w ++ ']' :: rest))) :=
          numGuard_cons v _ (by decide)
        have hval := ihV v ind (',' :: '\n' :: (elemsData ind w2 ws2 ++ (w ++ ']' :: rest))) f
          (by simp only [jsizeElems] at hN; have := jsize_pos w2; omega)
          (by simp only [jsizeElems] at hfuel; have := jsize_pos w2; omega) hguard
        have hrec : parseElems f ('\n' :: (elemsData ind w2 ws2 ++ (w ++ ']' :: rest))) =
            some (w2 :: ws2, rest) := by
          rw [show ('\n' :: (elemsData ind w2 ws2 ++ (w ++ ']' :: rest)) : List Char) =
            ['\n'] ++ (elemsData ind w2 ws2 ++ (w ++ ']' :: rest)) from rfl]
          rw [parseElems_append_ws (by intro c hc; simp at hc; rw [hc]; rfl)]
          exact ihE w2 ws2 ind w rest f
            (by simp only [jsizeElems] at hN ⊢; omega)
            (by simp only [jsizeElems] at hfuel ⊢; omega) hw
        simp [hval, skipWs_cons_not_ws (show isWsChar ',' = false by decide), hrec]
    · -- member lists
      intro k va ms ind w rest fuel hN hfuel hw
      have h1 := jsize_pos va
      cases fuel with
      | zero => simp only [jsizeMems] at hfuel; omega
      | succ f =>
      cases ms with
      | nil =>
        rw [show membersData ind (k, va) [] =
          spacesChars ind ++
            ('"' :: (escList k.data ++ '"' :: ':' :: ' ' :: stringifyData ind va)) by
          simp [membersData]]
        have harg : (spacesChars ind ++
            ('"' :: (escList k.data ++ '"' :: ':' :: ' ' :: stringifyData ind va))) ++
            (w ++ '\x7d' :: rest) =
            spacesChars ind ++ ('"' :: (escList k.data ++ '"' :: ':' :: ' ' ::
              (stringifyData ind va ++ (w ++ '\x7d' :: rest)))) := by
          simp [List.append_assoc]
        rw [harg]
        simp only [parseMembers]
        rw [skipWs_append_ws (spacesChars_ws ind), skipWs_cons_not_ws (by decide)]
        have hguard : numGuard va (w ++ '\x7d' :: rest) :=
          numGuard_wsHead va rest (by decide) hw
        have hval : parseVal f (' ' :: (stringifyData ind va ++ (w ++ '\x7d' :: rest))) =
            some (va, w ++ '\x7d' :: rest) := by
          rw [show (' ' :: (stringifyData ind va ++ (w ++ '\x7d' :: rest)) : List Char) =
            [' '] ++ (stringifyData ind va ++ (w ++ '\x7d' :: rest)) from rfl]
          rw [parseVal_append_ws (by intro c hc; simp at hc; rw [hc]; rfl)]
          exact ihV va ind _ f
            (by simp only [jsizeMems] at hN; omega)
            (by simp only [jsizeMems] at hfuel; omega) hguard
        have hskw : skipWs (w ++ '\x7d' :: rest) = '\x7d' :: rest := by
          rw [skipWs_append_ws hw, skipWs_cons_not_ws (by decide)]
        simp [parseStrAux_esc, skipWs_cons_not_ws (show isWsChar ':' = false by decide),
          hval, hskw, mk_data]
      | cons m2 ms2 =>
        obtain ⟨k2, va2⟩ := m2
        rw [show membersData ind (k, va) ((k2, va2) :: ms2) =
          spacesChars ind ++
            ('"' :: (escList k.data ++ '"' :: ':' :: ' ' :: stringifyData ind va)) ++
            ',' :: '\n' :: membersData ind (k2, va2) ms2 by
          simp [membersData]]
        have harg : (spacesChars ind ++
            ('"' :: (escList k.data ++ '"' :: ':' :: ' ' :: stringifyData ind va)) ++
            ',' :: '\n' :: membersData ind (k2, va2) ms2) ++ (w ++ '\x7d' :: rest) =
            spacesChars ind ++ ('"' :: (escList k.data ++ '"' :: ':' :: ' ' ::
              (stringifyData ind va ++
                (',' :: '\n' :: (membersData ind (k2, va2) ms2 ++ (w ++ '\x7d' :: rest)))))) := by
          simp [List.append_assoc]
        rw [harg]
        simp only [parseMembers]
        rw [skipWs_append_ws (spacesChars_ws ind), skipWs_cons_not_ws (by decide)]
        have hguard : numGuard va
            (',' :: '\n' :: (membersData ind (k2, va2) ms2 ++ (w ++ '\x7d' :: rest))) :=
          numGuard_cons va _ (by decide)
        have hval : parseVal f (' ' :: (stringifyData ind va ++
            (',' :: '\n' :: (membersData ind (k2, va2) ms2 ++ (w ++ '\x7d' :: rest))))) =
            some (va, ',' :: '\n' :: (membersData ind (k2, va2) ms2 ++ (w ++ '\x7d' :: rest))) := by
          rw [show (' ' :: (stringifyData ind va ++
            (',' :: '\n' :: (membersData ind (k2, va2) ms2 ++ (w ++ '\x7d' :: rest)))) : List Char) =
            [' '] ++ (stringifyData ind va ++
            (',' :: '\n' :: (membersData ind (k2, va2) ms2 ++ (w ++ '\x7d' :: rest)))) from rfl]
          rw [parseVal_append_ws (by intro c hc; simp at hc; rw [hc]; rfl)]
          exact ihV va ind _ f
            (by simp only [jsizeMems] at hN; have := jsize_pos va2; omega)
            (by simp only [jsizeMems] at hfuel; have := jsize_pos va2; omega) hguard
        have hrec : parseMembers f
            ('\n' :: (membersData ind (k2, va2) ms2 ++ (w ++ '\x7d' :: rest))) =
            some ((k2, va2) :: ms2, rest) := by
          rw [show ('\n' :: (membersData ind (k2, va2) ms2 ++ (w ++ '\x7d' :: rest)) : List Char) =
            ['\n'] ++ (membersData ind (k2, va2) ms2 ++ (w ++ '\x7d' :: rest)) from rfl]
          rw [parseMembers_append_ws (by intro c hc; simp at hc; rw [hc]; rfl)]
          exact ihM k2 va2 ms2 ind w rest f
            (by simp only [jsizeMems] at hN ⊢; omega)
            (by simp only [jsizeMems] at hfuel ⊢; omega) hw
        simp [parseStrAux_esc, skipWs_cons_not_ws (show isWsChar ':' = false by decide),
          hval, skipWs_cons_not_ws (show isWsChar ',' = false by decide), hrec, mk_data]

/-- Parsing inverts serialization, for any fuel at least the structural size. -/
theorem parseVal_stringifyData (v : Json) (ind : ℕ) (rest : List Char) (fuel : ℕ)
    (h : jsize v ≤ fuel) (hg : numGuard v rest) :
    parseVal fuel (stringifyData ind v ++ rest) = some (v, rest) :=
  (roundTripAux (jsize v)).1 v ind rest fuel le_rfl h hg

/-- `JSON.parse` inverts `JSON.stringify(·, null, 2)`. -/
theorem jsonParse_jsonStringify (v : Json) : jsonParse (jsonStringify v) = some v := by
  have h := parseVal_stringifyData v 0 [] ((stringifyData 0 v).length + 1)
    (le_trans (jsize_le_stringify v 0) (Nat.le_succ _)) (numGuard_nil v)
  rw [List.append_nil] at h
  rw [jsonParse, jsonStringify]
  have hdata : (String.mk (stringifyData 0 v)).data = stringifyData 0 v := rfl
  rw [hdata, h]
  simp [skipWs]

/-! ### Metrics Aggregator (GET /api/pnl, src/unnamed/part_000:255-282)

Trade records are JSON objects.  The accessors below model the JavaScript
expressions used by the handler on the well-formed trade domain (fields
`settled`, `pnl`, `size` that are numbers, `null`, booleans-as-truthiness,
or absent); the theorems about the aggregator quantify over that domain. -/

/-- Property access `o[k]`: `some` when `o` is an object with key `k`
(first occurrence; JavaScript objects have unique keys), else `undefined`. -/
def jget : Json → String → Option Json
  | .obj ms, k => ms.lookup k
  | _, _ => none

/-- JavaScript truthiness of a JSON value. -/
def truthy : Json → Bool
  | .null => false
  | .bool b => b
  | .num n => n != 0
  | .str s => s != ""
  | .arr _ => true
  | .obj _ => true

/-- `t.settled` used as a condition (absent field is `undefined`, falsy). -/
def tradeSettled (t : Json) : Bool :=
  match jget t "settled" with
  | some j => truthy j
  | none => false

/-- `t.pnl > 0` (absent and `null` compare false; numbers numerically). -/
def tradePnlPos (t : Json) : Bool :=
  match jget t "pnl" with
  | some (.num n) => 0 < n
  | _ => false

/-- `x || 0` for a numeric-or-null-or-absent field. -/
def jsNumOr0 : Option Json → ℚ
  | some (.num n) => (n : ℚ)
  | _ => 0

def tradePnl (t : Json) : ℚ := jsNumOr0 (jget t "pnl")

def tradeSize (t : Json) : ℚ := jsNumOr0 (jget t "size")

/-- `parseFloat(x.toFixed(k))`: round to `k` decimal places (ties away
from the floor, as ECMAScript `toFixed` picks the larger candidate). -/
def roundTo (k : ℕ) (q : ℚ) : ℚ := ((round (q * 10 ^ k) : ℤ) : ℚ) / 10 ^ k

/-- Response record of GET /api/pnl. -/
structure PnlResp where
  totalPnl : ℚ
  totalBet : ℚ
  totalTrades : ℕ
  settled : ℕ
  wins : ℕ
  losses : ℕ
  successRate : ℚ
  roi : ℚ
  trades : List Json

/-- The aggregation performed by GET /api/pnl over the ledger trades. -/
def pnlMetrics (trades : List Json) : PnlResp :=
  let closed := trades.filter tradeSettled
  let wins := closed.filter tradePnlPos
  let totalPnl : ℚ := closed.foldl (fun s t => s + tradePnl t) 0
  let totalBet : ℚ := trades.foldl (fun s t => s + tradeSize t) 0
  let successRate : ℚ := if closed.length ≠ 0 then (wins.length : ℚ) / closed.length else 0
  let roi : ℚ := if 0 < totalBet then totalPnl / totalBet else 0
  { totalPnl := roundTo 2 totalPnl
    totalBet := roundTo 2 totalBet
    totalTrades := trades.length
    settled := closed.length
    wins := wins.length
    losses := closed.length - wins.length
    successRate := roundTo 1 (successRate * 100)
    roi := roundTo 2 (roi * 100)
    trades := (trades.drop (trades.length - 50)).reverse }

/-- GET /api/pnl: load the ledger, read `d.trades || []`, aggregate.
`none` models the 500 response (a truthy non-array `trades`, or a `null`
document, makes `trades.filter` throw). -/
def pnlHandler (fs : FileState) : Option PnlResp :=
  match loadData fs with
  | .null => none
  | d =>
    match jget d "trades" with
    | some (.arr ts) => some (pnlMetrics ts)
    | some j => if truthy j then none else some (pnlMetrics [])
    | none => some (pnlMetrics [])

/-! ### POST /api/trades (src/unnamed/part_000:285-295) -/

/-- Replace the value at the first occurrence of a key (models in-place
mutation of the field of a JavaScript object). -/
def setKey : List (String × Json) → String → Json → List (String × Json)
  | [], _, _ => []
  | (k, v) :: ms, key, nv => if k = key then (k, nv) :: ms else (k, v) :: setKey ms key nv

/-- POST /api/trades: load, build `{id: Date.now(), ...req.body,
loggedAt: new Date().toISOString()}` (for a body whose keys do not collide
with `id`/`loggedAt`), push onto `d.trades`, save.  `none` models the 500
response thrown by `d.trades.push` when `trades` is missing or not an
array. -/
def postTrade (fs : FileState) (body : List (String × Json)) (nowMs : Int)
    (iso : String) : Option (FileState × Json) :=
  let d := loadData fs
  let trade := Json.obj (("id", Json.num nowMs) :: body ++ [("loggedAt", Json.str iso)])
  match d with
  | .obj ms =>
    match ms.lookup "trades" with
    | some (.arr ts) =>
        some (saveData (Json.obj (setKey ms "trades" (.arr (ts ++ [trade])))), trade)
    | _ => none
  | _ => none

theorem lookup_setKey (ms : List (String × Json)) (key : String) (nv : Json)
    {w : Json} (h : ms.lookup key = some w) :
    (setKey ms key nv).lookup key = some nv := by
  induction ms with
  | nil => simp at h
  | cons m ms ih =>
    obtain ⟨k, v⟩ := m
    by_cases hk : k = key
    · subst hk
      simp [setKey, List.lookup]
    · have hbe : (key == k) = false :=
        beq_eq_false_iff_ne.mpr (fun he => hk he.symm)
      simp only [setKey, if_neg hk, List.lookup, hbe] at h ⊢
      exact ih h

/-! ### Request Signer (buildClobHeaders, src/unnamed/part_000:48-61)

HMAC-SHA256 over `timestamp + METHOD + path + body` under the
base64-decoded secret, emitted as URL-safe base64.  SHA-256 and HMAC are
implemented concretely (bytes as naturals below 256, words as naturals
below 2^32). -/

/-- UTF-8 encoding of one character. -/
def utf8Char (c : Char) : List ℕ :=
  let n := c.toNat
  if n < 128 then [n]
  else if n < 2048 then [192 + n / 64, 128 + n % 64]
  else if n < 65536 then [224 + n / 4096, 128 + (n / 64) % 64, 128 + n % 64]
  else [240 + n / 262144, 128 + (n / 4096) % 64, 128 + (n / 64) % 64, 128 + n % 64]

def utf8List : List Char → List ℕ
  | [] => []
  | c :: r => utf8Char c ++ utf8List r

/-- Value of one base64 alphabet character (both standard and URL-safe
alphabets accepted; other characters ignored, as `Buffer.from(s, "base64")`
is lenient). -/
def b64Val (c : Char) : Option ℕ :=
  let n := c.toNat
  if 65 ≤ n ∧ n ≤ 90 then some (n - 65)
  else if 97 ≤ n ∧ n ≤ 122 then some (n - 71)
  else if 48 ≤ n ∧ n ≤ 57 then some (n + 4)
  else if c = '+' ∨ c = '-' then some 62
  else if c = '/' ∨ c = '_' then some 63
  else none

/-- Regroup base64 sextets into bytes (trailing 1-sextet groups carry no
full byte and are dropped, as in Node). -/
def b64Groups : List ℕ → List ℕ
  | a :: b :: c :: d :: r =>
      (a * 4 + b / 16) :: ((b % 16) * 16 + c / 4) :: ((c % 4) * 64 + d) :: b64Groups r
  | [a, b] => [a * 4 + b / 16]
  | [a, b, c] => [a * 4 + b / 16, (b % 16) * 16 + c / 4]
  | _ => []

/-- `Buffer.from(s, "base64")`. -/
def b64Decode (s : String) : List ℕ := b64Groups (s.data.filterMap b64Val)

/-- URL-safe base64 alphabet. -/
def b64UrlChar (n : ℕ) : Char :=
  if n < 26 then Char.ofNat (65 + n)
  else if n < 52 then Char.ofNat (97 + (n - 26))
  else if n < 62 then Char.ofNat (48 + (n - 52))
  else if n = 62 then '-'
  else '_'

/-- `digest("base64url")`: URL-safe base64, no padding. -/
def b64UrlEncode : List ℕ → List Char
  | b1 :: b2 :: b3 :: r =>
      b64UrlChar (b1 / 4) :: b64UrlChar ((b1 % 4) * 16 + b2 / 16) ::
      b64UrlChar ((b2 % 16) * 4 + b3 / 64) :: b64UrlChar (b3 % 64) :: b64UrlEncode r
  | [b1, b2] =>
      [b64UrlChar (b1 / 4), b64UrlChar ((b1 % 4) * 16 + b2 / 16),
       b64UrlChar ((b2 % 16) * 4)]
  | [b1] => [b64UrlChar (b1 / 4), b64UrlChar ((b1 % 4) * 16)]
  | [] => []

def add32 (a b : ℕ) : ℕ := (a + b) % 4294967296

def rotr32 (k x : ℕ) : ℕ := x / 2 ^ k + (x % 2 ^ k) * 2 ^ (32 - k)

def not32 (x : ℕ) : ℕ := 4294967295 - x

/-- SHA-256 round constants. -/
def shaK : List ℕ :=
  [1116352408, 1899447441, 3049323471, 3921009573, 961987163,
   1508970993, 2453635748, 2870763221, 3624381080, 310598401,
   607225278, 1426881987, 1925078388, 2162078206, 2614888103,
   3248222580, 3835390401, 4022224774, 264347078, 604807628,
   770255983, 1249150122, 1555081692, 1996064986, 2554220882,
   2821834349, 2952996808, 3210313671, 3336571891, 3584528711,
   113926993, 338241895, 666307205, 773529912, 1294757372,
   1396182291, 1695183700, 1986661051, 2177026350, 2456956037,
   2730485921, 2820302411, 3259730800, 3345764771, 3516065817,
   3600352804, 4094571909, 275423344, 430227734, 506948616,
   659060556, 883997877, 958139571, 1322822218, 1537002063,
   1747873779, 1955562222, 2024104815, 2227730452, 2361852424,
   2428436474, 2756734187, 3204031479, 3329325298]

/-- SHA-256 initial hash state. -/
def shaH0 : List ℕ :=
  [1779033703, 3144134277, 1013904242, 2773480762,
   1359893119, 2600822924, 528734635, 1541459225]

def smallSigma0 (x : ℕ) : ℕ := Nat.xor (Nat.xor (rotr32 7 x) (rotr32 18 x)) (x / 8)

def smallSigma1 (x : ℕ) : ℕ := Nat.xor (Nat.xor (rotr32 17 x) (rotr32 19 x)) (x / 1024)

def bigSigma0 (x : ℕ) : ℕ := Nat.xor (Nat.xor (rotr32 2 x) (rotr32 13 x)) (rotr32 22 x)

def bigSigma1 (x : ℕ) : ℕ := Nat.xor (Nat.xor (rotr32 6 x) (rotr32 11 x)) (rotr32 25 x)

/-- Big-endian 4-byte groups to 32-bit words. -/
def bytesToWords : List ℕ → List ℕ
  | b1 :: b2 :: b3 :: b4 :: r =>
      (((b1 * 256 + b2) * 256 + b3) * 256 + b4) :: bytesToWords r
  | _ => []

def wordToBytes (w : ℕ) : List ℕ :=
  [w / 16777216 % 256, w / 65536 % 256, w / 256 % 256, w % 256]

/-- Extend the 16 message words to 64 (iterated `count` times). -/
def extendW (ws : List ℕ) : ℕ → List ℕ
  | 0 => ws
  | count + 1 =>
    let i := ws.length
    let nw := add32 (add32 (smallSigma1 (ws.getD (i - 2) 0)) (ws.getD (i - 7) 0))
      (add32 (smallSigma0 (ws.getD (i - 15) 0)) (ws.getD (i - 16) 0))
    extendW (ws ++ [nw]) count

/-- One SHA-256 compression round. -/
def shaRound (st : List ℕ) (kw : ℕ × ℕ) : List ℕ :=
  match st with
  | [a, b, c, d, e, f, g, h] =>
    let ch := Nat.xor (Nat.land e f) (Nat.land (not32 e) g)
    let maj := Nat.xor (Nat.xor (Nat.land a b) (Nat.land a c)) (Nat.land b c)
    let t1 := add32 (add32 (add32 h (bigSigma1 e)) (add32 ch kw.1)) kw.2
    let t2 := add32 (bigSigma0 a) maj
    [add32 t1 t2, a, b, c, add32 d t1, e, f, g]
  | st => st

/-- Process one 64-byte block. -/
def shaBlock (h : List ℕ) (block : List ℕ) : List ℕ :=
  let w := extendW (bytesToWords block) 48
  let st := (shaK.zip w).foldl shaRound h
  (h.zip st).map (fun p => add32 p.1 p.2)

/-- Split into 64-byte chunks. -/
def chunks64 (l : List ℕ) : List (List ℕ) :=
  if h : l = [] then [] else l.take 64 :: chunks64 (l.drop 64)
termination_by l.length
decreasing_by
  simp only [List.length_drop]
  have : 0 < l.length := List.length_pos.mpr h
  omega

/-- SHA-256 padding: `0x80`, zeros to 56 mod 64, 8-byte big-endian bit
length. -/
def shaPad (msg : List ℕ) : List ℕ :=
  let len := msg.length
  let zeros := (119 - len % 64) % 64
  let bits := 8 * len
  msg ++ 128 :: List.replicate zeros 0 ++
    [bits / 2 ^ 56 % 256, bits / 2 ^ 48 % 256, bits / 2 ^ 40 % 256, bits / 2 ^ 32 % 256,
     bits / 2 ^ 24 % 256, bits / 2 ^ 16 % 256, bits / 2 ^ 8 % 256, bits % 256]

/-- SHA-256 of a byte sequence, as 32 bytes. -/
def sha256 (msg : List ℕ) : List ℕ :=
  let hFinal := (chunks64 (shaPad msg)).foldl shaBlock shaH0
  hFinal.foldr (fun w acc => wordToBytes w ++ acc) []

/-- HMAC-SHA256 (`crypto.createHmac("sha256", key)`). -/
def hmacSha256 (key msg : List ℕ) : List ℕ :=
  let k0 := if 64 < key.length then sha256 key else key
  let kp := k0 ++ List.replicate (64 - k0.length) 0
  let ipad := kp.map (fun b => Nat.xor b 54)
  let opad := kp.map (fun b => Nat.xor b 92)
  sha256 (opad ++ sha256 (ipad ++ msg))

/-- `buildClobHeaders` (src/unnamed/part_000:48-61).  The clock
(`Math.floor(Date.now() / 1000)`) and the environment credentials are
explicit arguments. -/
def buildClobHeaders (tsSec : ℕ) (secret holdingPub apiKey apiPass : String)
    (method reqPath : String) (body : String := "") : List (String × String) :=
  let ts := String.mk (natChars tsSec)
  let msg := ts ++ method.toUpper ++ reqPath ++ body
  let key := b64Decode secret
  let sig := String.mk (b64UrlEncode (hmacSha256 key (utf8List msg.data)))
  [("POLY_ADDRESS", holdingPub),
   ("POLY_SIGNATURE", sig),
   ("POLY_TIMESTAMP", ts),
   ("POLY_API_KEY", apiKey),
   ("POLY_PASSPHRASE", apiPass),
   ("Content-Type", "application/json")]

/-- The signature algorithm as the specification words it: concatenate
the decimal seconds timestamp, the uppercased method, the path and the
body; HMAC-SHA256 under the base64-decoded secret; URL-safe base64. -/
def signatureSpec (tsSec : ℕ) (secret method reqPath body : String) : String :=
  String.mk (b64UrlEncode (hmacSha256 (b64Decode secret)
    (utf8List (String.mk (natChars tsSec) ++ method.toUpper ++ reqPath ++ body).data)))

/-! ### Decision-Log Parser (src/unnamed/part_000:217-252 and
src/dashboard/server.js:68-103)

Each regular expression of the source is compiled, by hand, to a
deterministic matcher with JavaScript leftmost-match and
greedy-with-backtracking semantics on the character classes involved. -/

/-- JavaScript `\s` (ASCII part). -/
def isWsJs (c : Char) : Bool :=
  c = ' ' || c = '\t' || c = '\n' || c = '\r' || c = Char.ofNat 11 || c = Char.ofNat 12

/-- JavaScript `.` (anything but a line terminator). -/
def isDotChar (c : Char) : Bool := !(c = '\n' || c = '\r')

def isDotDigit (c : Char) : Bool := isDigitChar c || c = '.'

def isSignChar (c : Char) : Bool := c = '+' || c = '-'

/-- Strip a literal from the head of the input. -/
def dropLit : List Char → List Char → Option (List Char)
  | [], s => some s
  | _ :: _, [] => none
  | c :: r, d :: s => if c = d then dropLit r s else none

/-- Leftmost match: try the position matcher at every start index. -/
def scanFirst {α : Type} (m : List Char → Option α) : List Char → Option α
  | [] => m []
  | c :: r =>
    match m (c :: r) with
    | some x => some x
    | none => scanFirst m r

/-- Positions after a line terminator (for a multiline `^` anchor). -/
def scanAfterNl {α : Type} (m : List Char → Option α) : List Char → Option α
  | [] => none
  | c :: r =>
    if c = '\n' || c = '\r' then
      match m r with
      | some x => some x
      | none => scanAfterNl m r
    else scanAfterNl m r

def scanLineStarts {α : Type} (m : List Char → Option α) (s : List Char) : Option α :=
  match m s with
  | some x => some x
  | none => scanAfterNl m s

/-- The suffix starting at the last character satisfying `p` (backtracking
a greedy run from the right). -/
def lastSatSuffix (p : Char → Bool) : List Char → Option (List Char)
  | [] => none
  | c :: r =>
    match lastSatSuffix p r with
    | some t => some t
    | none => if p c then some (c :: r) else none

/-- `/Verdict[:\*\s]+([A-Z_]+)/` at one position (the two classes are
disjoint, so the greedy match is deterministic). -/
def isVerdictClass (c : Char) : Bool := c = ':' || c = '*' || isWsJs c

def isUpperUnd (c : Char) : Bool := (65 ≤ c.toNat && c.toNat ≤ 90) || c = '_'

def verdictAt (s : List Char) : Option String := do
  let r ← dropLit "Verdict".data s
  if (r.takeWhile isVerdictClass).isEmpty then none
  else
    let cap := (r.dropWhile isVerdictClass).takeWhile isUpperUnd
    if cap.isEmpty then none else some (String.mk cap)

def matchVerdict (s : List Char) : Option String := scanFirst verdictAt s

/-- `/lit[^\d]+([\d.]+)/` at one position.  The run class contains `'.'`
which also belongs to the capture class, so when the run hits the end of
input the engine backtracks to the last dot strictly inside the run. -/
def numCapAAt (lit : List Char) (s : List Char) : Option String := do
  let r ← dropLit lit s
  let run := r.takeWhile (fun c => !isDigitChar c)
  if run.isEmpty then none
  else
    match r.dropWhile (fun c => !isDigitChar c) with
    | [] =>
      match lastSatSuffix (fun c => c = '.') (run.drop 1) with
      | some t => some (String.mk (t.takeWhile isDotDigit))
      | none => none
    | c :: r2 => some (String.mk ((c :: r2).takeWhile isDotDigit))

def matchNumA (lit : String) (s : List Char) : Option String :=
  scanFirst (numCapAAt lit.data) s

/-- `/Edge[^\+\-\d]+([\+\-]?[\d.]+)/` at one position. -/
def numCapBAt (lit : List Char) (s : List Char) : Option String := do
  let r ← dropLit lit s
  let cls := fun c => !(isSignChar c || isDigitChar c)
  let run := r.takeWhile cls
  if run.isEmpty then none
  else
    match r.dropWhile cls with
    | [] =>
      match lastSatSuffix (fun c => c = '.') (run.drop 1) with
      | some t => some (String.mk (t.takeWhile isDotDigit))
      | none => none
    | c :: r2 =>
      if isDigitChar c then some (String.mk ((c :: r2).takeWhile isDotDigit))
      else
        let run2 := r2.takeWhile isDotDigit
        if !run2.isEmpty then some (String.mk (c :: run2))
        else
          match lastSatSuffix (fun c => c = '.') (run.drop 1) with
          | some t => some (String.mk (t.takeWhile isDotDigit))
          | none => none

def matchNumB (lit : String) (s : List Char) : Option String :=
  scanFirst (numCapBAt lit.data) s

/-- `/\*\*Question:\*\*\s*(.+)/` at one position (`\s*` can eat line
terminators; `.` cannot, so a run to end-of-input backtracks to the last
non-terminator whitespace). -/
def questionAt (s : List Char) : Option String := do
  let r ← dropLit "**Question:**".data s
  match r.dropWhile isWsJs with
  | [] =>
    match lastSatSuffix isDotChar (r.takeWhile isWsJs) with
    | some t => some (String.mk (t.takeWhile isDotChar))
    | none => none
  | rest2 => some (String.mk (rest2.takeWhile isDotChar))

def matchQuestion (s : List Char) : Option String := scanFirst questionAt s

/-- `/^#\s+(.+)/m` at one line start. -/
def titleAt (s : List Char) : Option String := do
  let r ← dropLit "#".data s
  let w := r.takeWhile isWsJs
  if w.isEmpty then none
  else
    match r.dropWhile isWsJs with
    | [] =>
      match lastSatSuffix isDotChar (w.drop 1) with
      | some t => some (String.mk (t.takeWhile isDotChar))
      | none => none
    | rest2 => some (String.mk (rest2.takeWhile isDotChar))

def matchTitle (s : List Char) : Option String := scanLineStarts titleAt s

/-- `/lit (.+)/` (a fixed literal directly followed by the capture), as in
the dashboard/server.js patterns. -/
def litLineAt (lit : List Char) (s : List Char) : Option String := do
  let r ← dropLit lit s
  let cap := r.takeWhile isDotChar
  if cap.isEmpty then none else some (String.mk cap)

def matchLitLine (lit : String) (s : List Char) : Option String :=
  scanFirst (litLineAt lit.data) s

def natOfDigitChars (l : List Char) : ℕ :=
  l.foldl (fun a c => 10 * a + (c.toNat - 48)) 0

/-- `parseFloat` (sign, digits, optional fraction; `none` is `NaN`).
Exponents and hex forms are outside the modelled input domain. -/
def parseFloatJs (s : String) : Option ℚ :=
  let t := s.data.dropWhile isWsJs
  let signedTail : ℚ × List Char :=
    match t with
    | [] => (1, [])
    | c :: r => if c = '-' then (-1, r) else if c = '+' then (1, r) else (1, c :: r)
  let d1 := signedTail.2.takeWhile isDigitChar
  let r1 := signedTail.2.dropWhile isDigitChar
  let d2 : List Char :=
    match r1 with
    | [] => []
    | c :: r2 => if c = '.' then r2.takeWhile isDigitChar else []
  if d1.isEmpty && d2.isEmpty then none
  else some (signedTail.1 * ((natOfDigitChars d1 : ℚ) + (natOfDigitChars d2 : ℚ) / 10 ^ d2.length))

/-- `s.slice(0, n)`. -/
def jsSlice (s : String) (n : ℕ) : String := String.mk (s.data.take n)

/-- Remove the first occurrence of `tgt` (JavaScript
`String.prototype.replace` with an empty replacement). -/
def removeFirst (tgt : List Char) : List Char → List Char
  | [] => []
  | c :: r =>
    match dropLit tgt (c :: r) with
    | some rest => rest
    | none => c :: removeFirst tgt r

def jsTrim (s : String) : String :=
  String.mk (((s.data.dropWhile isWsJs).reverse.dropWhile isWsJs).reverse)

/-- One parsed decision entry (GET /api/decisions, part_000).  Numeric
fields are `Option ℚ` with `none` for `NaN`. -/
structure Decision where
  file : String
  verdict : String
  question : String
  yesPrice : Option ℚ
  pollyP : Option ℚ
  edge : Option ℚ
  conf : Option ℚ

/-- Field extraction for one markdown file (part_000:226-235). -/
def parseDecision (f : String) (raw : String) : Decision :=
  let rd := raw.data
  let question :=
    match matchQuestion rd with
    | some q => q
    | none =>
      match (matchTitle rd).map
        (fun t => jsTrim (String.mk (removeFirst "Decision Log".data t.data))) with
      | some bs => if bs = "" then String.mk (removeFirst ".md".data f.data) else bs
      | none => String.mk (removeFirst ".md".data f.data)
  { file := f
    verdict := (matchVerdict rd).getD "SCAN"
    question := jsSlice question 120
    yesPrice := parseFloatJs ((matchNumA "Market YES price" rd).getD "0")
    pollyP := parseFloatJs ((matchNumA "Polly YES estimate" rd).getD "0")
    edge := parseFloatJs ((matchNumB "Edge" rd).getD "0")
    conf := parseFloatJs ((matchNumA "Confidence" rd).getD "0") }

/-- `f.endsWith(".md")`. -/
def endsWithMd (s : String) : Bool :=
  match s.data.reverse with
  | 'd' :: 'm' :: '.' :: _ => true
  | _ => false

/-- UTF-16-style lexicographic comparison (JavaScript `<` on strings,
the default `Array.prototype.sort` order). -/
def lexLe : List Char → List Char → Bool
  | [], _ => true
  | _ :: _, [] => false
  | a :: as, b :: bs => if a = b then lexLe as bs else decide (a.toNat < b.toNat)

def strLeB (a b : String) : Bool := lexLe a.data b.data

/-- Model of `Array.prototype.sort()` on strings: stable sort by the
default lexicographic order (insertion sort). -/
def insertStr (x : String) : List String → List String
  | [] => [x]
  | y :: ys => if strLeB x y then x :: y :: ys else y :: insertStr x ys

def sortStrs : List String → List String
  | [] => []
  | x :: xs => insertStr x (sortStrs xs)

/-- GET /api/decisions (part_000:221-236): markdown files, sorted, newest
first, at most 100, parsed. -/
def listDecisions (entries : List String) (readF : String → String) : List Decision :=
  let files := ((sortStrs (entries.filter endsWithMd)).reverse).take 100
  files.map (fun f => parseDecision f (readF f))

/-- One parsed entry of the dashboard/server.js variant. -/
structure DecisionS where
  file : String
  verdict : String
  question : String
  date : String

/-- Field extraction of the dashboard/server.js variant (server.js:79-85):
note the `"UNKNOWN"` verdict default and the untruncated question. -/
def parseDecisionServer (f content : String) : DecisionS :=
  { file := f
    verdict := (matchLitLine "**Verdict:** " content.data).getD "UNKNOWN"
    question := (matchLitLine "**Question:** " content.data).getD f
    date := (matchLitLine "**Date:** " content.data).getD "" }

/-- GET /api/decisions of the dashboard/server.js variant (at most 50). -/
def listDecisionsServer (entries : List String) (readF : String → String) : List DecisionS :=
  let files := ((sortStrs (entries.filter endsWithMd)).reverse).take 50
  files.map (fun f => parseDecisionServer f (readF f))

/-! ### Single-file fetch (GET /api/decisions/:file) and path model -/

/-- Split on `'/'` (keeping empty segments). -/
def splitSlashAux (cur : List Char) : List Char → List String
  | [] => [String.mk cur.reverse]
  | c :: r =>
    if c = '/' then String.mk cur.reverse :: splitSlashAux [] r
    else splitSlashAux (c :: cur) r

def splitSlash (s : String) : List String := splitSlashAux [] s.data

/-- `path.basename` (posix): last non-empty segment, or `""`. -/
def jsBasename (s : String) : String :=
  (((splitSlash s).filter (fun x => x ≠ "")).getLast?).getD ""

/-- One `path.join`/open-time normalization step over segments of an
absolute path (`"."` and `""` vanish, `".."` pops). -/
def normStep (acc : List String) (seg : String) : List String :=
  if seg = "" ∨ seg = "." then acc
  else if seg = ".." then acc.dropLast
  else acc ++ [seg]

/-- `path.join(dir, name)` on an already-normalized absolute `dir`. -/
def joinPath (dir : List String) (name : String) : List String :=
  (dir ++ splitSlash name).foldl normStep []

/-- Nodes of the file-system model. -/
inductive FNode where
  | file (content : String) : FNode
  | directory : FNode
  | absent : FNode

/-- Responses of GET /api/decisions/:file. -/
inductive DecisionResp where
  | notFound : DecisionResp
  | okContent (content : String) : DecisionResp
  | errorResp : DecisionResp

/-- The part_000 handler (part_000:244-252): resolve against
`path.basename(req.params.file)` only, 404 when nothing exists there, 500
when the read throws (e.g. the path names a directory). -/
def decisionFileHandler (fsys : List String → FNode) (dir : List String)
    (name : String) : DecisionResp :=
  let fp := joinPath dir (jsBasename name)
  match fsys fp with
  | .absent => .notFound
  | .file c => .okContent c
  | .directory => .errorResp

/-- The dashboard/server.js handler (server.js:93-103): joins the
caller-supplied name unsanitized. -/
def decisionFileHandlerServer (fsys : List String → FNode) (dir : List String)
    (name : String) : DecisionResp :=
  let fp := joinPath dir name
  match fsys fp with
  | .absent => .notFound
  | .file c => .okContent c
  | .directory => .errorResp

/-- "Lies inside the directory": the directory is a strict prefix. -/
def insideDir (dir p : List String) : Prop := dir <+: p ∧ dir ≠ p

/-! ### Upstream Gateway: fetchMarkets and its cache
(src/unnamed/part_000:91-134)

Raw upstream market records are typed by the fields the code reads;
numeric upstream fields arrive as numbers (`Option ℚ`, `none` when the
field is absent; `parseFloat` of an absent field is `NaN`, which fails the
volume filter and is defaulted by `|| 0` elsewhere).  The stringified
sub-fields (`outcomePrices`, `outcomes`, `clobTokenIds`) are kept as raw
strings and re-parsed with `JSON.parse`, whose exception aborts the whole
request (an uncaught throw inside the `map`). -/

/-- `Number(x)` for a parsed JSON array element (strings via the strict
full-string numeric conversion; exponents/hex are outside the modelled
domain; arrays and objects are modelled as `NaN`). -/
def jsStrToNum (s : String) : Option ℚ :=
  let t := ((s.data.dropWhile isWsJs).reverse.dropWhile isWsJs).reverse
  if t.isEmpty then some 0
  else
    let signedTail : ℚ × List Char :=
      match t with
      | [] => (1, [])
      | c :: r => if c = '-' then (-1, r) else if c = '+' then (1, r) else (1, c :: r)
    let d1 := signedTail.2.takeWhile isDigitChar
    let r1 := signedTail.2.dropWhile isDigitChar
    match r1 with
    | [] =>
      if d1.isEmpty then none
      else some (signedTail.1 * (natOfDigitChars d1 : ℚ))
    | c :: r2 =>
      if c = '.' then
        let d2 := r2.takeWhile isDigitChar
        if (r2.dropWhile isDigitChar).isEmpty && !(d1.isEmpty && d2.isEmpty) then
          some (signedTail.1 *
            ((natOfDigitChars d1 : ℚ) + (natOfDigitChars d2 : ℚ) / 10 ^ d2.length))
        else none
      else none

def jsNumber : Json → Option ℚ
  | .num n => some (n : ℚ)
  | .null => some 0
  | .bool b => some (if b then 1 else 0)
  | .str s => jsStrToNum s
  | _ => none

structure Tag where
  label : String

structure EventObj where
  tags : List Tag

/-- Raw market record from the Gamma API, typed by the fields read. -/
structure RawMarket where
  id : String
  question : String
  slug : String
  conditionId : String
  enableOrderBook : Bool
  volumeNum : Option ℚ
  outcomePrices : Option String
  outcomes : Option String
  clobTokenIds : Option String
  volume24hr : Option ℚ
  volume1wk : Option ℚ
  liquidityNum : Option ℚ
  endDateIso : Option String
  acceptingOrders : Bool
  negRisk : Bool
  description : Option String
  events : List EventObj

/-- Market snapshot shape produced by `fetchMarkets`. -/
structure Market where
  id : String
  question : String
  slug : String
  conditionId : String
  yesPrice : Option ℚ
  noPrice : Option ℚ
  outcomes : Json
  tokens : Json
  volume : ℚ
  volume24h : ℚ
  volume1wk : ℚ
  liquidity : ℚ
  endDate : String
  acceptingOrders : Bool
  negRisk : Bool
  description : String
  tags : List String

/-- The filter `m.enableOrderBook && parseFloat(m.volumeNum) > 1000`
(`NaN > 1000` is false). -/
def rawPass (m : RawMarket) : Bool :=
  m.enableOrderBook &&
    (match m.volumeNum with
     | some v => decide (1000 < v)
     | none => false)

/-- The mapping of one raw market (part_000:105-127); `none` models the
exception thrown by `JSON.parse` on a malformed sub-field (or `.map` on a
non-array parse result). -/
def mapRawMarket (m : RawMarket) : Option Market := do
  let pj ← jsonParse (m.outcomePrices.getD "[]")
  let pl ← (match pj with
            | .arr l => some l
            | _ => none)
  let prices := pl.map jsNumber
  let oc ← jsonParse (m.outcomes.getD "[]")
  let tk ← jsonParse (m.clobTokenIds.getD "[]")
  some
    { id := m.id
      question := m.question
      slug := m.slug
      conditionId := m.conditionId
      yesPrice := match prices.get? 0 with
                  | some v => v
                  | none => some (1 / 2)
      noPrice := match prices.get? 1 with
                 | some v => v
                 | none => some (1 / 2)
      outcomes := oc
      tokens := tk
      volume := m.volumeNum.getD 0
      volume24h := m.volume24hr.getD 0
      volume1wk := m.volume1wk.getD 0
      liquidity := m.liquidityNum.getD 0
      endDate := m.endDateIso.getD ""
      acceptingOrders := m.acceptingOrders
      negRisk := m.negRisk
      description := jsSlice (m.description.getD "") 300
      tags := ((m.events.head?.map EventObj.tags).getD []).map Tag.label }

/-- `.sort((a, b) => b.volume24h - a.volume24h)`: stable sort descending
by 24-hour volume. -/
def insertMkt (x : Market) : List Market → List Market
  | [] => [x]
  | y :: ys => if decide (y.volume24h ≤ x.volume24h) then x :: y :: ys else y :: insertMkt x ys

def sortMkts : List Market → List Market
  | [] => []
  | x :: xs => insertMkt x (sortMkts xs)

/-- The filter-map-sort pipeline over the upstream response. -/
def processMarkets (raw : List RawMarket) : Option (List Market) :=
  ((raw.filter rawPass).mapM mapRawMarket).map sortMkts

/-- The module-level cache (`_marketsCache`, `_marketsCacheTime`). -/
structure CacheState where
  cache : Option (List Market)
  time : ℕ

/-- Result of one `fetchMarkets` invocation: the upstream request issued
(with its `limit` parameter; `active`/`closed` are fixed), if any, and the
returned list plus new cache state, or `none` for a thrown exception
(which leaves the cache untouched). -/
structure FetchResult where
  request : Option ℕ
  outcome : Option (List Market × CacheState)

/-- `fetchMarkets(limit)` (part_000:94-134) as a state transition; `nowMs`
is `Date.now()` and `resp` the upstream response body. -/
def fetchMarketsStep (st : CacheState) (nowMs limit : ℕ) (resp : List RawMarket) :
    FetchResult :=
  match st.cache with
  | some c =>
    if nowMs - st.time < 60000 then ⟨none, some (c, st)⟩
    else ⟨some limit, (processMarkets resp).map (fun ms => (ms, ⟨some ms, nowMs⟩))⟩
  | none => ⟨some limit, (processMarkets resp).map (fun ms => (ms, ⟨some ms, nowMs⟩))⟩

/-- Cache state after an invocation (unchanged when it threw). -/
def stateAfter (st : CacheState) (r : FetchResult) : CacheState :=
  match r.outcome with
  | some (_, st2) => st2
  | none => st

/-- Number of upstream HTTP calls an invocation made (0 or 1). -/
def upstreamCalls (r : FetchResult) : ℕ :=
  match r.request with
  | some _ => 1
  | none => 0

/-! ## Claims -/

/-- C4: Ledger Store `load()` never raises: for every backing-file state in
which the file is absent, unreadable, or its contents are not valid JSON,
`load()` returns exactly the document
`{trades: [], transfers: [], notes: []}`. -/
theorem claim_load_defaults :
    loadData .absent = defaultLedger ∧
    loadData .unreadable = defaultLedger ∧
    ∀ s, jsonParse s = none → loadData (.content s) = defaultLedger := by
  refine ⟨rfl, rfl, fun s h => ?_⟩
  simp [loadData, h]

/-- Witness for C4 at the concrete non-JSON content `"not json"`. -/
theorem claim_load_defaults_witness :
    loadData (.content "not json") = defaultLedger :=
  claim_load_defaults.2.2 "not json" rfl

theorem loadData_saveData (d : Json) : loadData (saveData d) = d := by
  simp [loadData, saveData, jsonParse_jsonStringify d]

/-- C5: for every JSON-serializable ledger document `d`,
`save(d)` followed by `load()` returns a value deep-equal to `d`. -/
theorem claim_save_load_roundtrip (d : Json) : loadData (saveData d) = d :=
  loadData_saveData d

/-- C2: the Request Signer concatenates the decimal seconds timestamp, the
uppercased method, the path and the body, takes HMAC-SHA256 of that string
under the base64-decoded secret, encodes the digest in URL-safe base64, and
emits headers carrying the account address, signature, timestamp, API key
and passphrase plus a content-type marker; the signature is deterministic
in those inputs. -/
theorem claim_signer (tsSec : ℕ)
    (secret holdingPub apiKey apiPass method reqPath body : String) :
    (buildClobHeaders tsSec secret holdingPub apiKey apiPass
        method reqPath body).lookup "POLY_SIGNATURE" =
      some (signatureSpec tsSec secret method reqPath body) ∧
    (buildClobHeaders tsSec secret holdingPub apiKey apiPass
        method reqPath body).lookup "POLY_ADDRESS" = some holdingPub ∧
    (buildClobHeaders tsSec secret holdingPub apiKey apiPass
        method reqPath body).lookup "POLY_TIMESTAMP" =
      some (String.mk (natChars tsSec)) ∧
    (buildClobHeaders tsSec secret holdingPub apiKey apiPass
        method reqPath body).lookup "POLY_API_KEY" = some apiKey ∧
    (buildClobHeaders tsSec secret holdingPub apiKey apiPass
        method reqPath body).lookup "POLY_PASSPHRASE" = some apiPass ∧
    (buildClobHeaders tsSec secret holdingPub apiKey apiPass
        method reqPath body).lookup "Content-Type" = some "application/json" ∧
    (∀ ts2 secret2 method2 reqPath2 body2,
      tsSec = ts2 → secret = secret2 → method = method2 → reqPath = reqPath2 →
      body = body2 →
      signatureSpec tsSec secret method reqPath body =
        signatureSpec ts2 secret2 method2 reqPath2 body2) := by
  refine ⟨?_, ?_, ?_, ?_, ?_, ?_, ?_⟩
  · simp [buildClobHeaders, signatureSpec, List.lookup]
  · simp [buildClobHeaders, List.lookup]
  · simp [buildClobHeaders, List.lookup]
  · simp [buildClobHeaders, List.lookup]
  · simp [buildClobHeaders, List.lookup]
  · simp [buildClobHeaders, List.lookup]
  · intro ts2 secret2 method2 reqPath2 body2 h1 h2 h3 h4 h5
    subst h1; subst h2; subst h3; subst h4; subst h5
    rfl

/-- Witness for C2 at concrete signer inputs. -/
theorem claim_signer_witness :
    (buildClobHeaders 1700000000 "c2VjcmV0" "0xabc" "key" "pass"
        "get" "/data/orders" "").lookup "POLY_SIGNATURE" =
      some (signatureSpec 1700000000 "c2VjcmV0" "get" "/data/orders" "") ∧
    signatureSpec 1700000000 "c2VjcmV0" "get" "/data/orders" "" =
      signatureSpec 1700000000 "c2VjcmV0" "get" "/data/orders" "" :=
  ⟨(claim_signer 1700000000 "c2VjcmV0" "0xabc" "key" "pass"
      "get" "/data/orders" "").1,
   (claim_signer 1700000000 "c2VjcmV0" "0xabc" "key" "pass"
      "get" "/data/orders" "").2.2.2.2.2.2 1700000000 "c2VjcmV0" "get"
      "/data/orders" "" rfl rfl rfl rfl rfl⟩

/-- The three-trade input of the C1 example. -/
def c1t1 : Json := .obj [("settled", .bool true), ("pnl", .num 10), ("size", .num 100)]

def c1t2 : Json := .obj [("settled", .bool true), ("pnl", .num (-5)), ("size", .num 50)]

def c1t3 : Json := .obj [("settled", .bool false), ("size", .num 20)]

def c1Trades : List Json := [c1t1, c1t2, c1t3]

/-- C1: the Metrics Aggregator returns all-zero metrics on the empty trade
sequence (the guarded divisions never fault), and on the three-trade
example returns `totalPnl = 5.00`, `totalBet = 170.00`, `settled = 2`,
`wins = 1`, `successRate = 50.0` and `roi = 2.94`, rounding only at the
output boundary. -/
theorem claim_pnl_metrics :
    ((pnlMetrics []).successRate = 0 ∧ (pnlMetrics []).roi = 0 ∧
     (pnlMetrics []).totalPnl = 0 ∧ (pnlMetrics []).totalBet = 0) ∧
    ((pnlMetrics c1Trades).totalPnl = 5 ∧
     (pnlMetrics c1Trades).totalBet = 170 ∧
     (pnlMetrics c1Trades).settled = 2 ∧
     (pnlMetrics c1Trades).wins = 1 ∧
     (pnlMetrics c1Trades).successRate = 50 ∧
     (pnlMetrics c1Trades).roi = 2.94) := by
  constructor
  · refine ⟨?_, ?_, ?_, ?_⟩ <;>
      norm_num [pnlMetrics, roundTo, round_eq, List.filter, List.foldl]
  · have hs1 : tradeSettled c1t1 = true := rfl
    have hs2 : tradeSettled c1t2 = true := rfl
    have hs3 : tradeSettled c1t3 = false := rfl
    have hp1 : tradePnlPos c1t1 = true := rfl
    have hp2 : tradePnlPos c1t2 = false := rfl
    have hpn1 : tradePnl c1t1 = 10 := rfl
    have hpn2 : tradePnl c1t2 = -5 := rfl
    have hz1 : tradeSize c1t1 = 100 := rfl
    have hz2 : tradeSize c1t2 = 50 := rfl
    have hz3 : tradeSize c1t3 = 20 := rfl
    have hfil : List.filter tradeSettled [c1t1, c1t2, c1t3] = [c1t1, c1t2] := by
      simp [List.filter, hs1, hs2, hs3]
    have hwins : [c1t1, c1t2].filter tradePnlPos = [c1t1] := by
      simp [List.filter, hp1, hp2]
    refine ⟨?_, ?_, ?_, ?_, ?_, ?_⟩ <;>
      simp only [pnlMetrics, c1Trades, hfil, hwins, List.foldl, List.length_cons,
        List.length_nil, hpn1, hpn2, hz1, hz2, hz3] <;>
      norm_num [roundTo, round_eq]

theorem roundTo_two_add_int (q : ℚ) (n : ℤ) : roundTo 2 (q + n) = roundTo 2 q + n := by
  unfold roundTo
  rw [show (q + (n : ℚ)) * 10 ^ 2 = q * 10 ^ 2 + ((n * 100 : ℤ) : ℚ) by push_cast; ring,
    round_add_int]
  push_cast
  ring

/-- C9: appending a trade with body `{size: 25, pnl: null}` via
POST /api/trades makes a subsequent GET /api/pnl report `totalTrades`
increased by exactly 1 and `totalBet` increased by exactly 25, while
`settled`, `wins` and `totalPnl` are unchanged — for every ledger state
whose loaded document is an object with a `trades` array. -/
theorem claim_trade_append (fs0 : FileState) (nowMs : Int) (iso : String)
    (ms : List (String × Json)) (ts : List Json)
    (hdoc : loadData fs0 = .obj ms)
    (htr : List.lookup "trades" ms = some (.arr ts)) :
    ∃ fs1 tr,
      postTrade fs0 [("size", .num 25), ("pnl", .null)] nowMs iso = some (fs1, tr) ∧
      ∃ p0 p1, pnlHandler fs0 = some p0 ∧ pnlHandler fs1 = some p1 ∧
        p1.totalTrades = p0.totalTrades + 1 ∧
        p1.totalBet = p0.totalBet + 25 ∧
        p1.settled = p0.settled ∧ p1.wins = p0.wins ∧ p1.totalPnl = p0.totalPnl := by
  have hnt_settled : tradeSettled (Json.obj [("id", Json.num nowMs),
      ("size", Json.num 25), ("pnl", Json.null), ("loggedAt", Json.str iso)]) =
      false := rfl
  have hnt_size : tradeSize (Json.obj [("id", Json.num nowMs),
      ("size", Json.num 25), ("pnl", Json.null), ("loggedAt", Json.str iso)]) =
      25 := rfl
  refine ⟨saveData (Json.obj (setKey ms "trades" (.arr (ts ++
      [Json.obj (("id", Json.num nowMs) :: [("size", Json.num 25), ("pnl", Json.null)] ++
        [("loggedAt", Json.str iso)])])))),
    Json.obj (("id", Json.num nowMs) :: [("size", Json.num 25), ("pnl", Json.null)] ++
      [("loggedAt", Json.str iso)]),
    ?_, pnlMetrics ts,
    pnlMetrics (ts ++ [Json.obj (("id", Json.num nowMs) ::
      [("size", Json.num 25), ("pnl", Json.null)] ++ [("loggedAt", Json.str iso)])]),
    ?_, ?_, ?_, ?_, ?_, ?_, ?_⟩
  · simp only [postTrade, hdoc, htr]
  · simp only [pnlHandler, hdoc, jget, htr]
  · have hload : loadData (saveData (Json.obj
        (setKey ms "trades" (.arr (ts ++ [Json.obj (("id", Json.num nowMs) ::
          [("size", Json.num 25), ("pnl", Json.null)] ++
            [("loggedAt", Json.str iso)])]))))) =
        Json.obj (setKey ms "trades" (.arr (ts ++ [Json.obj (("id", Json.num nowMs) ::
          [("size", Json.num 25), ("pnl", Json.null)] ++
            [("loggedAt", Json.str iso)])]))) :=
      loadData_saveData _
    simp only [pnlHandler, hload, jget, lookup_setKey ms "trades" _ htr]
  · simp [pnlMetrics]
  · simp only [pnlMetrics, List.foldl_append, List.foldl_cons, List.foldl_nil, hnt_size]
    exact roundTo_two_add_int _ 25
  · simp [pnlMetrics, List.filter_append, List.filter_cons, hnt_settled]
  · simp [pnlMetrics, List.filter_append, List.filter_cons, hnt_settled]
  · simp [pnlMetrics, List.filter_append, List.filter_cons, hnt_settled]

/-- Witness for C9 starting from the absent backing file. -/
theorem claim_trade_append_witness :
    ∃ fs1 tr,
      postTrade .absent [("size", .num 25), ("pnl", .null)] 0 "t" = some (fs1, tr) ∧
      ∃ p0 p1, pnlHandler .absent = some p0 ∧ pnlHandler fs1 = some p1 ∧
        p1.totalTrades = p0.totalTrades + 1 ∧
        p1.totalBet = p0.totalBet + 25 ∧
        p1.settled = p0.settled ∧ p1.wins = p0.wins ∧ p1.totalPnl = p0.totalPnl :=
  claim_trade_append .absent 0 "t"
    [("trades", .arr []), ("transfers", .arr []), ("notes", .arr [])] [] rfl rfl

/-- A raw market whose `outcomePrices` is not valid JSON: it passes the
volume filter and then `JSON.parse` throws inside the mapping. -/
def badRaw : RawMarket :=
  { id := "1", question := "q", slug := "s", conditionId := "c",
    enableOrderBook := true, volumeNum := some 2000, outcomePrices := some "x",
    outcomes := none, clobTokenIds := none, volume24hr := none, volume1wk := none,
    liquidityNum := none, endDateIso := none, acceptingOrders := true,
    negRisk := false, description := none, events := [] }

/-- Counterexample to C6 as stated: two `fetchMarkets` invocations 1 ms
apart both issue an upstream call, because the first invocation's response
processing throws (`JSON.parse` of a malformed `outcomePrices`) before the
cache is assigned. -/
theorem claim_fetch_cache_counterexample :
    upstreamCalls (fetchMarketsStep ⟨none, 0⟩ 0 50 [badRaw]) +
      upstreamCalls (fetchMarketsStep
        (stateAfter ⟨none, 0⟩ (fetchMarketsStep ⟨none, 0⟩ 0 50 [badRaw]))
        1 50 [badRaw]) = 2 ∧
    (1 : ℕ) - 0 < 60000 := by
  have hpass : rawPass badRaw = true := by
    simp only [rawPass, badRaw]
    norm_num
  have hmap : mapRawMarket badRaw = none := by
    simp [mapRawMarket, badRaw, show jsonParse "x" = none from rfl]
  have hproc : processMarkets [badRaw] = none := by
    simp [processMarkets, List.filter, hpass, hmap, List.mapM, List.mapM.loop]
  constructor
  · simp [fetchMarketsStep, stateAfter, upstreamCalls, hproc]
  · decide

theorem upstreamCalls_le_one (r : FetchResult) : upstreamCalls r ≤ 1 := by
  obtain ⟨req, out⟩ := r
  cases req <;> simp [upstreamCalls]

/-- C6 (amended): within a 60-second window, at most one upstream call is
made provided the first invocation's processing does not throw; a cached
list younger than 60 seconds is returned as-is with no request; a
successful cache miss stores the fetched list together with the fetch
time. -/
theorem claim_fetch_cache (st0 : CacheState) (t1 t2 l1 l2 : ℕ)
    (resp1 resp2 : List RawMarket)
    (hle : t1 ≤ t2) (hwin : t2 - t1 < 60000)
    (hok : (fetchMarketsStep st0 t1 l1 resp1).outcome ≠ none) :
    upstreamCalls (fetchMarketsStep st0 t1 l1 resp1) +
      upstreamCalls (fetchMarketsStep
        (stateAfter st0 (fetchMarketsStep st0 t1 l1 resp1)) t2 l2 resp2) ≤ 1 ∧
    (∀ c, st0.cache = some c → t1 - st0.time < 60000 →
      fetchMarketsStep st0 t1 l1 resp1 = ⟨none, some (c, st0)⟩) ∧
    (∀ ms, (st0.cache = none ∨ 60000 ≤ t1 - st0.time) →
      processMarkets resp1 = some ms →
      fetchMarketsStep st0 t1 l1 resp1 = ⟨some l1, some (ms, ⟨some ms, t1⟩)⟩) := by
  refine ⟨?_, ?_, ?_⟩
  · match hc : st0.cache with
    | some c =>
      by_cases hfresh : t1 - st0.time < 60000
      · have h1 : upstreamCalls (fetchMarketsStep st0 t1 l1 resp1) = 0 := by
          simp [fetchMarketsStep, hc, hfresh, upstreamCalls]
        have h2 := upstreamCalls_le_one (fetchMarketsStep
          (stateAfter st0 (fetchMarketsStep st0 t1 l1 resp1)) t2 l2 resp2)
        omega
      · match hp : processMarkets resp1 with
        | some ms =>
          have h2 : t2 - t1 < 60000 := hwin
          simp [fetchMarketsStep, hc, hfresh, hp, stateAfter, upstreamCalls, h2]
        | none =>
          exfalso
          apply hok
          simp [fetchMarketsStep, hc, hfresh, hp]
    | none =>
      match hp : processMarkets resp1 with
      | some ms =>
        have h2 : t2 - t1 < 60000 := hwin
        simp [fetchMarketsStep, hc, hp, stateAfter, upstreamCalls, h2]
      | none =>
        exfalso
        apply hok
        simp [fetchMarketsStep, hc, hp]
  · intro c hc hfresh
    simp [fetchMarketsStep, hc, hfresh]
  · intro ms hmiss hp
    rcases hmiss with hc | hstale
    · simp [fetchMarketsStep, hc, hp]
    · match hc : st0.cache with
      | none => simp [fetchMarketsStep, hc, hp]
      | some c => simp [fetchMarketsStep, hc, Nat.not_lt.mpr hstale, hp]

/-- Witness for C6 (amended) at a concrete empty cache and empty upstream
response. -/
theorem claim_fetch_cache_witness :
    upstreamCalls (fetchMarketsStep ⟨none, 0⟩ 0 50 []) +
      upstreamCalls (fetchMarketsStep
        (stateAfter ⟨none, 0⟩ (fetchMarketsStep ⟨none, 0⟩ 0 50 [])) 1 10 []) ≤ 1 :=
  (claim_fetch_cache ⟨none, 0⟩ 0 1 50 10 [] [] (by decide) (by decide)
    (by simp [fetchMarketsStep, processMarkets, List.mapM, List.mapM.loop])).1

/-- C10: the cache key ignores the `limit` argument: after a successful
miss with limit `l1` at `t1`, a second call within the staleness window
returns exactly the list fetched with `l1`, for every `l2` and every
second upstream response, and issues no request; `limit` influences the
result only on a cache miss. -/
theorem claim_fetch_limit_ignored (st0 : CacheState) (t1 t2 l1 l2 : ℕ)
    (resp1 resp2 : List RawMarket) (ms : List Market)
    (hmiss : st0.cache = none ∨ 60000 ≤ t1 - st0.time)
    (hsucc : processMarkets resp1 = some ms)
    (hle : t1 ≤ t2) (hwin : t2 - t1 < 60000) :
    (fetchMarketsStep st0 t1 l1 resp1).request = some l1 ∧
    fetchMarketsStep (stateAfter st0 (fetchMarketsStep st0 t1 l1 resp1)) t2 l2 resp2 =
      ⟨none, some (ms, ⟨some ms, t1⟩)⟩ := by
  have hr1 : fetchMarketsStep st0 t1 l1 resp1 = ⟨some l1, some (ms, ⟨some ms, t1⟩)⟩ := by
    rcases hmiss with hc | hstale
    · simp [fetchMarketsStep, hc, hsucc]
    · match hc : st0.cache with
      | none => simp [fetchMarketsStep, hc, hsucc]
      | some c => simp [fetchMarketsStep, hc, Nat.not_lt.mpr hstale, hsucc]
  rw [hr1]
  have h2 : t2 - t1 < 60000 := hwin
  refine ⟨rfl, ?_⟩
  simp [stateAfter, fetchMarketsStep, h2]

/-- Witness for C10: the second call passes a different limit and a
different (even unparsable) response, and still returns the first list. -/
theorem claim_fetch_limit_ignored_witness :
    (fetchMarketsStep ⟨none, 0⟩ 0 50 []).request = some 50 ∧
    fetchMarketsStep (stateAfter ⟨none, 0⟩ (fetchMarketsStep ⟨none, 0⟩ 0 50 []))
        1 10 [badRaw] = ⟨none, some ([], ⟨some [], 0⟩)⟩ :=
  claim_fetch_limit_ignored ⟨none, 0⟩ 0 1 50 10 [] [badRaw] []
    (Or.inl rfl) (by simp [processMarkets, List.mapM, List.mapM.loop, sortMkts])
    (by decide) (by decide)

theorem splitSlashAux_no_slash :
    ∀ (l cur : List Char), (∀ c ∈ cur, c ≠ '/') →
      ∀ seg ∈ splitSlashAux cur l, ∀ c ∈ seg.data, c ≠ '/' := by
  intro l
  induction l with
  | nil =>
    intro cur hcur seg hseg c hc
    simp only [splitSlashAux, List.mem_singleton] at hseg
    subst hseg
    exact hcur c (by simpa using hc)
  | cons d r ih =>
    intro cur hcur seg hseg c hc
    by_cases hd : d = '/'
    · rw [show splitSlashAux cur (d :: r) =
        String.mk cur.reverse :: splitSlashAux [] r by simp [splitSlashAux, hd]] at hseg
      rcases List.mem_cons.mp hseg with rfl | h2
      · exact hcur c (by simpa using hc)
      · exact ih [] (by simp) seg h2 c hc
    · rw [show splitSlashAux cur (d :: r) = splitSlashAux (d :: cur) r by
        simp [splitSlashAux, hd]] at hseg
      refine ih (d :: cur) ?_ seg hseg c hc
      intro e he
      rcases List.mem_cons.mp he with rfl | h2
      · exact hd
      · exact hcur e h2

theorem splitSlashAux_single :
    ∀ (l cur : List Char), (∀ c ∈ l, c ≠ '/') →
      splitSlashAux cur l = [String.mk (cur.reverse ++ l)] := by
  intro l
  induction l with
  | nil => intro cur _; simp [splitSlashAux]
  | cons d r ih =>
    intro cur h
    have hd : d ≠ '/' := h d (by simp)
    rw [show splitSlashAux cur (d :: r) = splitSlashAux (d :: cur) r by
      simp [splitSlashAux, hd]]
    rw [ih (d :: cur) (fun e he => h e (by simp [he]))]
    simp

theorem splitSlash_single {s : String} (h : ∀ c ∈ s.data, c ≠ '/') :
    splitSlash s = [s] := by
  rw [splitSlash, splitSlashAux_single s.data [] h]
  simp [mk_data]

theorem jsBasename_no_slash (name : String) :
    ∀ c ∈ (jsBasename name).data, c ≠ '/' := by
  rw [jsBasename]
  cases hl : (((splitSlash name).filter (fun x => x ≠ "")).getLast?) with
  | none => intro c hc; simp at hc
  | some seg =>
    intro c hc
    have hmem : seg ∈ (splitSlash name).filter (fun x => x ≠ "") := by
      have : seg ∈ (((splitSlash name).filter (fun x => x ≠ "")).getLast?) := by
        rw [hl]; rfl
      obtain ⟨hne, heq⟩ := List.mem_getLast?_eq_getLast this
      rw [heq]
      exact List.getLast_mem hne
    exact splitSlashAux_no_slash name.data [] (by simp) seg
      (List.mem_of_mem_filter hmem) c (by simpa using hc)

theorem joinPath_basename (dir : List String) (name : String)
    (hnorm : List.foldl normStep [] dir = dir) :
    joinPath dir (jsBasename name) = normStep dir (jsBasename name) := by
  rw [joinPath, splitSlash_single (jsBasename_no_slash name), List.foldl_append, hnorm]
  rfl

/-- C3 (amended, part_000 handler): the handler resolves against only the
base name of the supplied value, so whenever it returns file content, what
was read is a direct child of the decisions directory (strictly inside
it); the degenerate base names `""`, `"."` and `".."` resolve to the
directory itself or its parent, where the read faults without disclosing
content; and a not-found condition (404) is reported when nothing exists
at the resolved path.  `hnorm` says the directory path is normalized;
`hdirfile`/`hparent` say the directory and its parent are not regular
files. -/
theorem claim_decision_file_safety (fsys : List String → FNode) (dir : List String)
    (name : String)
    (hnorm : List.foldl normStep [] dir = dir)
    (hdirfile : ∀ c, fsys dir ≠ .file c)
    (hparent : ∀ c, fsys dir.dropLast ≠ .file c) :
    (∀ c, decisionFileHandler fsys dir name = .okContent c →
      joinPath dir (jsBasename name) = dir ++ [jsBasename name] ∧
      insideDir dir (dir ++ [jsBasename name]) ∧
      fsys (dir ++ [jsBasename name]) = .file c) ∧
    (fsys (joinPath dir (jsBasename name)) = .absent →
      decisionFileHandler fsys dir name = .notFound) := by
  have hjoin := joinPath_basename dir name hnorm
  constructor
  · intro c hok
    rw [decisionFileHandler, hjoin] at hok
    by_cases hdeg : jsBasename name = "" ∨ jsBasename name = "."
    · rw [show normStep dir (jsBasename name) = dir by simp [normStep, hdeg]] at hok
      exfalso
      revert hok
      cases hfs : fsys dir with
      | file c2 => exact absurd hfs (hdirfile c2)
      | directory => intro hok; cases hok
      | absent => intro hok; cases hok
    by_cases hdd : jsBasename name = ".."
    · rw [show normStep dir (jsBasename name) = dir.dropLast by
        simp [normStep, hdd, hdeg]] at hok
      exfalso
      revert hok
      cases hfs : fsys dir.dropLast with
      | file c2 => exact absurd hfs (hparent c2)
      | directory => intro hok; cases hok
      | absent => intro hok; cases hok
    · have hstep : normStep dir (jsBasename name) = dir ++ [jsBasename name] := by
        rw [normStep, if_neg hdeg, if_neg hdd]
      rw [hstep] at hok
      refine ⟨by rw [hjoin, hstep], ⟨⟨[jsBasename name], rfl⟩, ?_⟩, ?_⟩
      · intro he
        have := congrArg List.length he
        simp at this
      · revert hok
        cases hfs : fsys (dir ++ [jsBasename name]) with
        | file c2 => intro hok; cases hok; rfl
        | directory => intro hok; cases hok
        | absent => intro hok; cases hok
  · intro habs
    rw [decisionFileHandler, habs]

/-- Counterexample to C3 as stated: the dashboard/server.js variant joins
the caller-supplied name unsanitized, so the traversal name `"../secret"`
reads a file strictly outside the decisions directory and returns its
content; the path actually read is not the one resolved against the base
name. -/
theorem claim_decision_file_counterexample :
    decisionFileHandlerServer
      (fun p => if p = ["srv", "secret"] then FNode.file "TOP SECRET" else FNode.absent)
      ["srv", "decisions"] "../secret" = .okContent "TOP SECRET" ∧
    joinPath ["srv", "decisions"] "../secret" = ["srv", "secret"] ∧
    ¬ insideDir ["srv", "decisions"] ["srv", "secret"] ∧
    joinPath ["srv", "decisions"] (jsBasename "../secret") =
      ["srv", "decisions", "secret"] := by
  refine ⟨rfl, rfl, ?_, rfl⟩
  rintro ⟨⟨t, ht⟩, hne⟩
  simp at ht

/-- Witness for C3 (amended) on a concrete file system. -/
theorem claim_decision_file_safety_witness :
    joinPath ["srv", "decisions"] (jsBasename "a.md") =
      ["srv", "decisions"] ++ [jsBasename "a.md"] ∧
    insideDir ["srv", "decisions"] (["srv", "decisions"] ++ [jsBasename "a.md"]) ∧
    (fun p => if p = ["srv", "decisions", "a.md"] then FNode.file "hi"
        else if p = ["srv", "decisions"] then FNode.directory
        else if p = ["srv"] then FNode.directory
        else FNode.absent) (["srv", "decisions"] ++ [jsBasename "a.md"]) = .file "hi" :=
  (claim_decision_file_safety
    (fun p => if p = ["srv", "decisions", "a.md"] then FNode.file "hi"
      else if p = ["srv", "decisions"] then FNode.directory
      else if p = ["srv"] then FNode.directory
      else FNode.absent)
    ["srv", "decisions"] "a.md" rfl
    (fun c h => nomatch h) (fun c h => nomatch h)).1 "hi" rfl

theorem parseFloatJs_zero : parseFloatJs "0" = some 0 := by
  have h0 : ("0".data : List Char) = ['0'] := rfl
  have h1 : List.takeWhile isDigitChar ['0'] = ['0'] := by decide
  have h2 : List.dropWhile isDigitChar ['0'] = [] := by decide
  have h3 : List.dropWhile isWsJs ['0'] = ['0'] := by decide
  have h4 : natOfDigitChars ['0'] = 0 := by decide
  have h5 : natOfDigitChars [] = 0 := by decide
  simp [parseFloatJs, h0, h3, h1, h2, h4, h5]

/-- Counterexample to C7 as stated: on a file with no recognizable Verdict
marker the dashboard/server.js parser yields `"UNKNOWN"`, not `"SCAN"`. -/
theorem claim_decision_verdict_counterexample :
    matchVerdict "no markers".data = none ∧
    matchLitLine "**Verdict:** " "no markers".data = none ∧
    (parseDecisionServer "a.md" "no markers").verdict = "UNKNOWN" ∧
    "UNKNOWN" ≠ ("SCAN" : String) := by
  refine ⟨rfl, rfl, rfl, by decide⟩

/-- C7 (amended, part_000 parser): each field is an independent
best-effort pattern match with a per-field default — a failed Verdict
match yields `"SCAN"` and failed numeric matches yield 0 — extraction is
total (never raises), and a file's entry is produced from its own content
alone, so no other file's content blocks it.  (The dashboard/server.js
variant defaults the verdict to `"UNKNOWN"` instead.) -/
theorem claim_decision_parse_defaults (f raw : String) :
    (matchVerdict raw.data = none → (parseDecision f raw).verdict = "SCAN") ∧
    (matchNumA "Market YES price" raw.data = none →
      (parseDecision f raw).yesPrice = some 0) ∧
    (matchNumA "Polly YES estimate" raw.data = none →
      (parseDecision f raw).pollyP = some 0) ∧
    (matchNumB "Edge" raw.data = none → (parseDecision f raw).edge = some 0) ∧
    (matchNumA "Confidence" raw.data = none → (parseDecision f raw).conf = some 0) ∧
    (∀ entries readF g,
      g ∈ ((sortStrs (entries.filter endsWithMd)).reverse).take 100 →
      parseDecision g (readF g) ∈ listDecisions entries readF) := by
  refine ⟨?_, ?_, ?_, ?_, ?_, ?_⟩
  · intro h; simp [parseDecision, h]
  · intro h; simp [parseDecision, h, parseFloatJs_zero]
  · intro h; simp [parseDecision, h, parseFloatJs_zero]
  · intro h; simp [parseDecision, h, parseFloatJs_zero]
  · intro h; simp [parseDecision, h, parseFloatJs_zero]
  · intro entries readF g hg
    simp only [listDecisions]
    exact List.mem_map_of_mem _ hg

/-- Witness for C7 (amended) on a file with no recognizable markers. -/
theorem claim_decision_parse_defaults_witness :
    (parseDecision "a.md" "hello").verdict = "SCAN" ∧
    (parseDecision "a.md" "hello").yesPrice = some 0 ∧
    (parseDecision "a.md" "hello").pollyP = some 0 ∧
    (parseDecision "a.md" "hello").edge = some 0 ∧
    (parseDecision "a.md" "hello").conf = some 0 :=
  ⟨(claim_decision_parse_defaults "a.md" "hello").1 rfl,
   (claim_decision_parse_defaults "a.md" "hello").2.1 rfl,
   (claim_decision_parse_defaults "a.md" "hello").2.2.1 rfl,
   (claim_decision_parse_defaults "a.md" "hello").2.2.2.1 rfl,
   (claim_decision_parse_defaults "a.md" "hello").2.2.2.2.1 rfl⟩

theorem char_toNat_inj {a b : Char} (h : a.toNat = b.toNat) : a = b :=
  (Char.ofNat_toNat a).symm.trans (h ▸ Char.ofNat_toNat b)

theorem lexLe_total : ∀ a b : List Char, lexLe a b = true ∨ lexLe b a = true := by
  intro a
  induction a with
  | nil => intro b; left; rfl
  | cons x xs ih =>
    intro b
    cases b with
    | nil => right; rfl
    | cons y ys =>
      by_cases hxy : x = y
      · subst hxy
        rcases ih ys with h | h
        · left; simpa [lexLe] using h
        · right; simpa [lexLe] using h
      · rcases Nat.lt_trichotomy x.toNat y.toNat with h | h | h
        · left; simp [lexLe, hxy, h]
        · exact absurd (char_toNat_inj h) hxy
        · right
          simp [lexLe, show y ≠ x from fun he => hxy he.symm]
          omega

theorem lexLe_trans : ∀ a b c : List Char,
    lexLe a b = true → lexLe b c = true → lexLe a c = true := by
  intro a
  induction a with
  | nil => intro b c _ _; rfl
  | cons x xs ih =>
    intro b c hab hbc
    cases b with
    | nil => simp [lexLe] at hab
    | cons y ys =>
      cases c with
      | nil => simp [lexLe] at hbc
      | cons z zs =>
        by_cases hxy : x = y <;> by_cases hyz : y = z
        · subst hxy; subst hyz
          simp only [lexLe, if_pos rfl] at hab hbc ⊢
          exact ih ys zs hab hbc
        · subst hxy
          simp only [lexLe, if_pos rfl] at hab
          simp only [lexLe, if_neg hyz] at hbc ⊢
          exact hbc
        · subst hyz
          simp only [lexLe, if_pos rfl] at hbc
          simp only [lexLe, if_neg hxy] at hab ⊢
          exact hab
        · simp only [lexLe, if_neg hxy] at hab
          simp only [lexLe, if_neg hyz] at hbc
          have h1 : x.toNat < y.toNat := by simpa using hab
          have h2 : y.toNat < z.toNat := by simpa using hbc
          have hxz : x ≠ z := by
            intro he
            subst he
            omega
          simp only [lexLe, if_neg hxz]
          simp
          omega

theorem strLeB_total (a b : String) : strLeB a b = true ∨ strLeB b a = true :=
  lexLe_total a.data b.data

theorem strLeB_trans {a b c : String} (h1 : strLeB a b = true) (h2 : strLeB b c = true) :
    strLeB a c = true :=
  lexLe_trans a.data b.data c.data h1 h2

theorem mem_insertStr {a x : String} : ∀ {l : List String},
    a ∈ insertStr x l → a = x ∨ a ∈ l := by
  intro l
  induction l with
  | nil => intro h; simpa [insertStr] using h
  | cons y ys ih =>
    intro h
    rw [insertStr] at h
    by_cases hc : strLeB x y = true
    · rw [if_pos hc] at h
      rcases List.mem_cons.mp h with rfl | h2
      · exact Or.inl rfl
      · exact Or.inr h2
    · rw [if_neg hc] at h
      rcases List.mem_cons.mp h with rfl | h2
      · exact Or.inr (List.mem_cons_self _ _)
      · rcases ih h2 with h3 | h3
        · exact Or.inl h3
        · exact Or.inr (List.mem_cons_of_mem _ h3)

theorem pairwise_insertStr (x : String) : ∀ (l : List String),
    l.Pairwise (fun a b => strLeB a b = true) →
    (insertStr x l).Pairwise (fun a b => strLeB a b = true) := by
  intro l
  induction l with
  | nil => intro _; simp [insertStr]
  | cons y ys ih =>
    intro h
    rw [List.pairwise_cons] at h
    rw [insertStr]
    by_cases hc : strLeB x y = true
    · rw [if_pos hc]
      refine List.Pairwise.cons ?_ (List.Pairwise.cons h.1 h.2)
      intro b hb
      rcases List.mem_cons.mp hb with rfl | h2
      · exact hc
      · exact strLeB_trans hc (h.1 b h2)
    · rw [if_neg hc]
      refine List.Pairwise.cons ?_ (ih h.2)
      intro b hb
      rcases mem_insertStr hb with rfl | h2
      · rcases strLeB_total y b with h3 | h3
        · exact h3
        · exact absurd h3 hc
      · exact h.1 b h2

theorem pairwise_sortStrs : ∀ l : List String,
    (sortStrs l).Pairwise (fun a b => strLeB a b = true) := by
  intro l
  induction l with
  | nil => simp [sortStrs]
  | cons x xs ih => exact pairwise_insertStr x (sortStrs xs) ih

theorem mem_sortStrs {a : String} : ∀ {l : List String}, a ∈ sortStrs l → a ∈ l := by
  intro l
  induction l with
  | nil => intro h; simpa [sortStrs] using h
  | cons x xs ih =>
    intro h
    rw [sortStrs] at h
    rcases mem_insertStr h with rfl | h2
    · exact List.mem_cons_self _ _
    · exact List.mem_cons_of_mem _ (ih h2)

theorem map_file_parse (readF : String → String) : ∀ files : List String,
    (files.map (fun f => parseDecision f (readF f))).map (fun d => d.file) = files := by
  intro files
  induction files with
  | nil => rfl
  | cons f fs ih =>
    rw [List.map_cons, List.map_cons, ih]
    rfl

/-- Counterexample to C8 as stated: the dashboard/server.js listing does
not truncate the question field — a 130-character question is returned
whole. -/
theorem claim_decision_listing_counterexample :
    (listDecisionsServer ["a.md"]
      (fun _ => String.mk ("**Question:** ".data ++ List.replicate 130 'a'))).map
        (fun d => d.question.length) = [130] ∧
    ¬ (130 ≤ 120) := by
  refine ⟨?_, by decide⟩
  rfl

/-- C8 (amended, part_000 listing): the directory listing returns at most
100 entries, selects only files with the markdown extension, orders them
most-recent first (reverse lexical order on filenames) and truncates each
entry's question to at most 120 characters.  (The dashboard/server.js
variant lists at most 50 entries and does not truncate.) -/
theorem claim_decision_listing (entries : List String) (readF : String → String) :
    (listDecisions entries readF).length ≤ 100 ∧
    (∀ d ∈ listDecisions entries readF, endsWithMd d.file = true) ∧
    ((listDecisions entries readF).map (fun d => d.file)).Pairwise
      (fun a b => strLeB b a = true) ∧
    (∀ d ∈ listDecisions entries readF, d.question.length ≤ 120) := by
  refine ⟨?_, ?_, ?_, ?_⟩
  · simp only [listDecisions, List.length_map]
    exact List.length_take_le _ _
  · intro d hd
    simp only [listDecisions, List.mem_map] at hd
    obtain ⟨g, hg, rfl⟩ := hd
    have h1 : g ∈ (sortStrs (entries.filter endsWithMd)).reverse :=
      List.mem_of_mem_take hg
    have h2 : g ∈ sortStrs (entries.filter endsWithMd) := List.mem_reverse.mp h1
    have h3 : g ∈ entries.filter endsWithMd := mem_sortStrs h2
    exact (List.mem_filter.mp h3).2
  · have hmm : (listDecisions entries readF).map (fun d => d.file) =
        ((sortStrs (entries.filter endsWithMd)).reverse).take 100 := by
      simp only [listDecisions]
      exact map_file_parse readF _
    rw [hmm]
    refine List.Pairwise.sublist (List.take_sublist _ _) ?_
    rw [List.pairwise_reverse]
    exact pairwise_sortStrs _
  · intro d hd
    simp only [listDecisions, List.mem_map] at hd
    obtain ⟨g, hg, rfl⟩ := hd
    show (jsSlice _ 120).length ≤ 120
    simp only [jsSlice]
    show (List.take 120 _).length ≤ 120
    exact List.length_take_le _ _

/-- Witness for C8 (amended) on a concrete directory. -/
theorem claim_decision_listing_witness :
    (listDecisions ["b.md", "a.txt", "a.md"] (fun _ => "hello")).length ≤ 100 ∧
    ((listDecisions ["b.md", "a.txt", "a.md"] (fun _ => "hello")).map
      (fun d => d.file)).Pairwise (fun a b => strLeB b a = true) :=
  ⟨(claim_decision_listing ["b.md", "a.txt", "a.md"] (fun _ => "hello")).1,
   (claim_decision_listing ["b.md", "a.txt", "a.md"] (fun _ => "hello")).2.2.1⟩

end Polly
